import Mathlib

/-!
# Verification of the Bankomant news pipeline (src/main.py)

Shallow embedding of the selection-and-delivery pipeline of the news bot:
content fingerprinting (`save_hash` / `is_duplicate`, backed by md5 of the
raw URL and title), the keyword relevance check (`is_finance_related`),
sentence-boundary truncation (`smart_truncate`), per-source selection
(`prioritize_sources`), consecutive-source avoidance
(`avoid_consecutive_sources`), the posting schedule generator
(`generate_post_schedule`), and the publish/retry loop of `publish_post`.

External collaborators (HTML extraction via BeautifulSoup, the Telegram
transport, the random number generator, wall-clock time) are passed in as
parameters, exactly at the call boundaries the source uses them.
Machine-level arithmetic (md5) is modelled on `Nat` with explicit
`% 2^32` reductions. Python floats that feed `int(... // 60)` style
computations are modelled as rationals.
-/

namespace Bankomant

/-! ## Text primitives (Python `str` operations on `List Char`) -/

/-- `startsList hay needle` : does `hay` begin with `needle`? -/
def startsList : List Char → List Char → Bool
  | _, [] => true
  | [], _ :: _ => false
  | h :: hs, n :: ns => (h = n) && startsList hs ns

/-- Python's substring test `needle in hay`. -/
def hasSub : List Char → List Char → Bool
  | [], needle => needle.isEmpty
  | h :: t, needle => startsList (h :: t) needle || hasSub t needle

/-- Python `str.lower` restricted to the alphabets the program handles:
ASCII letters and Russian Cyrillic (`А`–`Я` and `Ё`). -/
def pyLowerChar (c : Char) : Char :=
  if 'A' ≤ c ∧ c ≤ 'Z' then Char.ofNat (c.toNat + 32)
  else if 'А' ≤ c ∧ c ≤ 'Я' then Char.ofNat (c.toNat + 32)
  else if c = 'Ё' then 'ё'
  else c

/-- Python `str.lower` over a character list. -/
def pyLower (s : List Char) : List Char := s.map pyLowerChar

/-- Python `str.strip()` character class (the whitespace the program meets). -/
def isPySpace (c : Char) : Bool := c = ' ' || c = '\t' || c = '\n' || c = '\r'

/-- Python `str.strip()`. -/
def pyStrip (s : List Char) : List Char :=
  (s.dropWhile isPySpace).reverse.dropWhile isPySpace |>.reverse

/-! ## md5 (RFC 1321), on `Nat` with explicit mod-2³² arithmetic

`save_hash` / `is_duplicate` fingerprint a post as
`md5(url).hexdigest() + "_" + md5(title).hexdigest()`. -/

/-- Per-round left-rotation amounts. -/
def md5S : List Nat :=
  [7, 12, 17, 22, 7, 12, 17, 22, 7, 12, 17, 22, 7, 12, 17, 22,
   5, 9, 14, 20, 5, 9, 14, 20, 5, 9, 14, 20, 5, 9, 14, 20,
   4, 11, 16, 23, 4, 11, 16, 23, 4, 11, 16, 23, 4, 11, 16, 23,
   6, 10, 15, 21, 6, 10, 15, 21, 6, 10, 15, 21, 6, 10, 15, 21]

/-- Sine-derived round constants `⌊|sin(i+1)|·2³²⌋`. -/
def md5K : List Nat :=
  [3614090360, 3905402710, 606105819, 3250441966, 4118548399, 1200080426,
   2821735955, 4249261313, 1770035416, 2336552879, 4294925233, 2304563134,
   1804603682, 4254626195, 2792965006, 1236535329, 4129170786, 3225465664,
   643717713, 3921069994, 3593408605, 38016083, 3634488961, 3889429448,
   568446438, 3275163606, 4107603335, 1163531501, 2850285829, 4243563512,
   1735328473, 2368359562, 4294588738, 2272392833, 1839030562, 4259657740,
   2763975236, 1272893353, 4139469664, 3200236656, 681279174, 3936430074,
   3572445317, 76029189, 3654602809, 3873151461, 530742520, 3299628645,
   4096336452, 1126891415, 2878612391, 4237533241, 1700485571, 2399980690,
   4293915773, 2240044497, 1873313359, 4264355552, 2734768916, 1309151649,
   4149444226, 3174756917, 718787259, 3951481745]

/-- 32-bit complement. -/
def mdNot (x : Nat) : Nat := 4294967295 - x % 4294967296

/-- 32-bit left rotation (input assumed `< 2³²`). -/
def rotl32 (x n : Nat) : Nat :=
  ((x <<< n) % 4294967296) ||| (x >>> (32 - n))

/-- UTF-8 encoding of one character (as Python `str.encode()`). -/
def utf8Char (c : Char) : List Nat :=
  let n := c.toNat
  if n < 128 then [n]
  else if n < 2048 then [192 + n / 64, 128 + n % 64]
  else if n < 65536 then [224 + n / 4096, 128 + (n / 64) % 64, 128 + n % 64]
  else [240 + n / 262144, 128 + (n / 4096) % 64, 128 + (n / 64) % 64, 128 + n % 64]

/-- UTF-8 bytes of a string. -/
def utf8Bytes (s : String) : List Nat := s.data.flatMap utf8Char

/-- md5 padding: `0x80`, zeros to 56 mod 64, then the 64-bit little-endian
bit length. -/
def md5Pad (msg : List Nat) : List Nat :=
  let len := msg.length
  let padLen := (120 - (len + 1) % 64) % 64
  let bitLen := 8 * len
  msg ++ [128] ++ List.replicate padLen 0 ++
    (List.range 8).map (fun i => (bitLen >>> (8 * i)) % 256)

/-- Split a byte list into 16 little-endian 32-bit words (one 64-byte chunk). -/
def chunkWords (chunk : List Nat) : List Nat :=
  (List.range 16).map (fun j =>
    chunk.getD (4 * j) 0 + 256 * chunk.getD (4 * j + 1) 0 +
    65536 * chunk.getD (4 * j + 2) 0 + 16777216 * chunk.getD (4 * j + 3) 0)

/-- One of the 64 md5 operations. -/
def md5Step (M : List Nat) (st : Nat × Nat × Nat × Nat) (i : Nat) :
    Nat × Nat × Nat × Nat :=
  let (a, b, c, d) := st
  let f :=
    if i < 16 then (b &&& c) ||| (mdNot b &&& d)
    else if i < 32 then (d &&& b) ||| (mdNot d &&& c)
    else if i < 48 then b ^^^ c ^^^ d
    else c ^^^ (b ||| mdNot d)
  let g :=
    if i < 16 then i
    else if i < 32 then (5 * i + 1) % 16
    else if i < 48 then (3 * i + 5) % 16
    else (7 * i) % 16
  let sum := (a + f + md5K.getD i 0 + M.getD g 0) % 4294967296
  let b' := (b + rotl32 sum (md5S.getD i 0)) % 4294967296
  (d, b', b, c)

/-- Process one 64-byte chunk. -/
def md5Chunk (st : Nat × Nat × Nat × Nat) (chunk : List Nat) :
    Nat × Nat × Nat × Nat :=
  let M := chunkWords chunk
  let (a, b, c, d) := (List.range 64).foldl (md5Step M) st
  let (a0, b0, c0, d0) := st
  ((a0 + a) % 4294967296, (b0 + b) % 4294967296,
   (c0 + c) % 4294967296, (d0 + d) % 4294967296)

/-- Split into 64-byte chunks. -/
def splitChunks (l : List Nat) : List (List Nat) :=
  (List.range ((l.length + 63) / 64)).map (fun i => (l.drop (64 * i)).take 64)

/-- One lowercase hex digit. -/
def hexDigit (n : Nat) : Char :=
  if n < 10 then Char.ofNat (48 + n) else Char.ofNat (87 + n)

/-- Two-digit lowercase hex of a byte. -/
def hexByte (n : Nat) : List Char := [hexDigit (n / 16), hexDigit (n % 16)]

/-- Little-endian bytes of a 32-bit word. -/
def wordBytes (w : Nat) : List Nat :=
  [w % 256, (w >>> 8) % 256, (w >>> 16) % 256, (w >>> 24) % 256]

/-- `hashlib.md5(s.encode()).hexdigest()`. -/
def md5Hex (s : String) : String :=
  let padded := md5Pad (utf8Bytes s)
  let (a, b, c, d) :=
    (splitChunks padded).foldl md5Chunk (1732584193, 4023233417, 2562383102, 271733878)
  ⟨([a, b, c, d].flatMap wordBytes).flatMap hexByte⟩

/-! ## Module constants (src/main.py lines 69–101) -/

def MAX_POSTS_PER_DAY : Nat := 3
def MAX_CONTENT_LENGTH : Nat := 800
def MIN_CONTENT_LENGTH : Nat := 50

/-- `FINANCE_KEYWORDS` (src/main.py lines 85–101). -/
def FINANCE_KEYWORDS : List String :=
  ["банк", "кредит", "ипотека", "вклад", "депозит", "акция", "облигация",
   "рубль", "доллар", "евро", "инфляция", "ставка", "ЦБ", "ФРС", "биржа",
   "криптовалюта", "нефть", "газ", "экономика", "рынок", "инвест", "финанс",
   "ликвидность", "дивиденд", "кризис", "санкции", "регулятор", "центральный банк",
   "кредитная", "заем", "займ", "рефинансирование", "ипотечный", "вкладной",
   "сбережения", "инвестиционный", "фондовый", "валютный", "курс", "обмен",
   "платеж", "перевод", "карта", "дебетовая", "кредитная карта", "брокер",
   "трейдинг", "котировки", "индекс", "рыночная", "капитализация", "актив",
   "пассив", "баланс", "отчетность", "прибыль", "убыток", "дивиденды",
   "выплаты", "квартальный", "годовой", "отчет", "аудит", "надзор", "лицензия",
   "отзыв лицензии", "санация", "банкротство", "форекс", "трейдер", "инвестор",
   "портфель", "диверсификация", "риск", "доходность", "процент", "ставка рефинансирования",
   "ключевая ставка", "монетарный", "фискальный", "бюджет", "налог", "сбор",
   "тариф", "страхование", "страховая", "пенсионный", "накопительный", "ипотечное кредитование",
   "потребительское кредитование", "микрокредит", "МФО", "лизинг", "факторинг"]

/-! ## Bot state: fingerprint store, source priorities, deletion tracker

`posted_hashes` is the in-memory set (modelled as the list of inserted
entries, membership-faithful); `hash_file` the append-only
`posted_hashes.txt`; timestamps are abstract `Nat` instants. -/

structure BotState where
  posted_hashes : List String
  hash_file : List String
  source_priority : List (String × Int)
  deleted_tracker : List (String × Nat)
deriving DecidableEq, Repr

/-- The cold-start state. -/
def initState : BotState := ⟨[], [], [], []⟩

/-- Association-list lookup (Python `dict.get(k, default)`; first match). -/
def alistGet {α : Type} : List (String × α) → String → α → α
  | [], _, default => default
  | (k', v) :: rest, k, default => if k' = k then v else alistGet rest k default

/-- Association-list update (Python `dict[k] = v`): overwrite the first
binding in place, or append a new binding at the end (dicts preserve
insertion order). -/
def alistSet {α : Type} : List (String × α) → String → α → List (String × α)
  | [], k, v => [(k, v)]
  | (k', v') :: rest, k, v =>
    if k' = k then (k, v) :: rest else (k', v') :: alistSet rest k v

/-- The fingerprint of a post:
`md5(url).hexdigest() + "_" + md5(title).hexdigest()`
(src/main.py lines 221–225 / 233–237). -/
def combinedHash (url title : String) : String :=
  md5Hex url ++ "_" ++ md5Hex title

/-- `NewsBot.save_hash` (src/main.py lines 221–231): records the fingerprint
in the in-memory set and appends it to `posted_hashes.txt`. -/
def save_hash (st : BotState) (url title : String) : BotState :=
  let combined := combinedHash url title
  { st with
    posted_hashes :=
      if st.posted_hashes.contains combined then st.posted_hashes
      else combined :: st.posted_hashes
    hash_file := st.hash_file ++ [combined] }

/-- `NewsBot.is_duplicate` (src/main.py lines 233–238). -/
def is_duplicate (st : BotState) (url title : String) : Bool :=
  st.posted_hashes.contains (combinedHash url title)

/-- `NewsBot.load_hashes` (src/main.py lines 176–187): a fresh cycle reloads
only the most recent 500 lines of `posted_hashes.txt`. -/
def load_hashes (file : List String) : List String :=
  if file.length > 500 then file.drop (file.length - 500) else file

/-- `NewsBot.track_deleted_post` (src/main.py lines 240–248): records a
last-failure timestamp and lowers the source's priority by 2. -/
def track_deleted_post (st : BotState) (source : String) (now : Nat) : BotState :=
  { st with
    deleted_tracker := alistSet st.deleted_tracker source now
    source_priority :=
      alistSet st.source_priority source (alistGet st.source_priority source 0 - 2) }

/-! ## Relevance check -/

/-- `NewsBot.is_finance_related` (src/main.py lines 301–305): true iff some
keyword of `FINANCE_KEYWORDS` occurs in the lowercased `title + " " + content`. -/
def is_finance_related (title content : String) : Bool :=
  let text := pyLower (title.data ++ ' ' :: content.data)
  FINANCE_KEYWORDS.any (fun keyword => hasSub text keyword.data)

/-! ## Sentence-boundary truncation -/

/-- Python `str.rfind` restricted to a single character: index of the last
occurrence, `-1` if absent. -/
def rfindC : List Char → Char → Int
  | [], _ => -1
  | a :: as, c =>
    let r := rfindC as c
    if r ≥ 0 then r + 1 else if a = c then 0 else -1

/-- `NewsBot.smart_truncate` (src/main.py lines 488–497). -/
def smart_truncate (text : List Char) (maxLength : Nat) : List Char :=
  if text.length ≤ maxLength then text
  else
    let truncated := text.take (maxLength + 1)
    let lastEnd := max (rfindC truncated '.') (max (rfindC truncated '!') (rfindC truncated '?'))
    if lastEnd > (maxLength : Int) - 100 then truncated.take (lastEnd + 1).toNat
    else truncated.take maxLength ++ ['…']

/-! ## Candidate items and source-fair selection -/

/-- A parsed feed entry (the dict built in `fetch_feed`, src/main.py
lines 600–606). -/
structure NewsItem where
  title : String
  url : String
  content : String
  creator : String
  source : String
deriving DecidableEq, Repr

/-- One step of Python dict grouping: append `p` to the bucket of its
source, creating the bucket at the end on first sight (insertion order). -/
def insertGrouped (acc : List (String × List NewsItem)) (p : NewsItem) :
    List (String × List NewsItem) :=
  match acc with
  | [] => [(p.source, [p])]
  | (s, b) :: rest =>
    if s = p.source then (s, b ++ [p]) :: rest
    else (s, b) :: insertGrouped rest p

/-- `news_by_source` / `posts_by_source` grouping (src/main.py
lines 275–280 and 743–748). -/
def groupBySource (posts : List NewsItem) : List (String × List NewsItem) :=
  posts.foldl insertGrouped []

/-- Stable insertion for descending sort: `x` goes before the first
strictly-smaller element, after equals (Python `sorted(..., reverse=True)`
is stable). -/
def insertDescBy {α : Type} (gt : α → α → Bool) (x : α) : List α → List α
  | [] => [x]
  | y :: ys => if gt x y then x :: y :: ys else y :: insertDescBy gt x ys

/-- Stable descending sort, mirroring Python `sorted(..., key=k, reverse=True)`
with `gt a b = k b < k a`. -/
def sortDescBy {α : Type} (gt : α → α → Bool) (l : List α) : List α :=
  l.foldl (fun acc x => insertDescBy gt x acc) []

/-- Stable insertion for ascending sort. -/
def insertAscBy {α : Type} (lt : α → α → Bool) (x : α) : List α → List α
  | [] => [x]
  | y :: ys => if lt x y then x :: y :: ys else y :: insertAscBy lt x ys

/-- Stable ascending sort, mirroring Python `sorted(...)`. -/
def sortAscBy {α : Type} (lt : α → α → Bool) (l : List α) : List α :=
  l.foldl (fun acc x => insertAscBy lt x acc) []

/-- `NewsBot.prioritize_sources` (src/main.py lines 269–299): group by
source, order sources by `get_source_weight` descending, take the first
item of each source, truncate to `MAX_POSTS_PER_DAY`. `get_source_weight`
mixes priorities with wall-clock hours through float arithmetic, so the
weight map is passed in as a parameter; every theorem below holds for all
weights. -/
def prioritize_sources (weight : String → ℚ) (news_items : List NewsItem) :
    List NewsItem :=
  if news_items.isEmpty then []
  else
    ((sortDescBy (fun x y => weight y < weight x)
        ((groupBySource news_items).map (·.1))).filterMap
      (fun s => (alistGet (groupBySource news_items) s []).head?)).take
      MAX_POSTS_PER_DAY

/-- Pop the front of the bucket of `s`, if nonempty. -/
def bucketPop (B : List (String × List NewsItem)) (s : String) :
    Option (NewsItem × List (String × List NewsItem)) :=
  match alistGet B s [] with
  | [] => none
  | p :: rest => some (p, alistSet B s rest)

/-- The repair scan of `avoid_consecutive_sources` (src/main.py
lines 763–768): the first source in `order` other than `s` with a
nonempty bucket, with its front post popped. -/
def popOther (B : List (String × List NewsItem)) (s : String) :
    List String → Option (NewsItem × List (String × List NewsItem))
  | [] => none
  | t :: rest =>
    if t = s then popOther B s rest
    else
      match bucketPop B t with
      | some r => some r
      | none => popOther B s rest

/-- The body of the `for source in sorted_sources` loop (src/main.py
lines 755–768): pop one post of `s`, append it, and if the last two
appended posts share a source, pull a post of a different source in
front of the offender. -/
def stepSource (order : List String) (st : List (String × List NewsItem) × List NewsItem)
    (s : String) : List (String × List NewsItem) × List NewsItem :=
  let (B, result) := st
  match bucketPop B s with
  | none => (B, result)
  | some (p, B1) =>
    match result.getLast? with
    | some q =>
      if q.source = p.source then
        match popOther B1 s order with
        | some (ins, B2) => (B2, result ++ [ins, p])
        | none => (B1, result ++ [p])
      else (B1, result ++ [p])
    | none => (B1, result ++ [p])

/-- One sweep of the `for` loop over all of `sorted_sources`. -/
def passSources (order : List String)
    (st : List (String × List NewsItem) × List NewsItem) :
    List (String × List NewsItem) × List NewsItem :=
  order.foldl (stepSource order) st

/-- Posts still waiting in the buckets. -/
def totalCount (B : List (String × List NewsItem)) : Nat :=
  (B.map (·.2.length)).sum

/-- The `while any(posts_by_source.values())` loop (src/main.py
lines 754–768), with fuel: each productive sweep pops at least one post,
so fuel `totalCount B` drains the buckets completely. -/
def drainGo (order : List String) :
    Nat → List (String × List NewsItem) × List NewsItem →
    List (String × List NewsItem) × List NewsItem
  | 0, st => st
  | fuel + 1, (B, result) =>
    if totalCount B = 0 then (B, result)
    else drainGo order fuel (passSources order (B, result))

/-- The key order `sorted_sources` of `avoid_consecutive_sources`
(src/main.py line 751): bucket sizes descending, stable. -/
def consecOrder (B : List (String × List NewsItem)) : List String :=
  sortDescBy (fun x y => (alistGet B y []).length < (alistGet B x []).length)
    (B.map (·.1))

/-- The full interleaving built by the while loop, before the final
`[:MAX_POSTS_PER_DAY]` truncation. -/
def drainFull (posts : List NewsItem) : List NewsItem :=
  let B := groupBySource posts
  (drainGo (consecOrder B) (totalCount B) (B, [])).2

/-- `NewsBot.avoid_consecutive_sources` (src/main.py lines 737–770). -/
def avoid_consecutive_sources (posts : List NewsItem) : List NewsItem :=
  if posts.length < 2 then posts
  else (drainFull posts).take MAX_POSTS_PER_DAY

/-! ## Posting schedule (`generate_post_schedule`, src/main.py 678–735)

Wall-clock instants are (hour, minute) pairs on the relevant Moscow day;
`random.uniform(-30, 30)` jitters and the two `random.randint` clamp
fallbacks are parameters. Floats are modelled as rationals. -/

/-- One slot before clamping: minute position `720·(i+1)/4` plus jitter,
split as `int(total // 60)` hours and `int(total % 60)` minutes on top of
the 9:00 window start (src/main.py lines 706–720). -/
def slotTime (v : ℚ) (i : Nat) : Nat × Nat :=
  let total : ℚ := (720 * (i + 1) : ℚ) / 4 + v
  let hoursToAdd := (Int.floor (total / 60)).toNat
  let minutesToAdd := (Int.floor (total - 60 * Int.floor (total / 60))).toNat
  (9 + hoursToAdd, minutesToAdd)

/-- The window clamp (src/main.py lines 722–726); `r1 = randint(0, 30)`,
`r2 = randint(30, 59)`. -/
def clampTime (r1 r2 : Nat) (t : Nat × Nat) : Nat × Nat :=
  if t.1 < 9 then (9, r1)
  else if t.1 ≥ 21 then (21 - 1, r2)
  else t

/-- `NewsBot.generate_post_schedule`, happy path: the day offset of
`first_post_time` (0 = today, 1 = tomorrow) and the sorted list of
(hour, minute) post times. -/
def generate_post_schedule (nowHour : Nat) (v : Nat → ℚ) (r1 r2 : Nat) :
    Nat × List (Nat × Nat) :=
  let dayOffset := if nowHour < 9 then 0 else if nowHour ≥ 21 then 1 else 0
  let times := (List.range MAX_POSTS_PER_DAY).map
    (fun i => clampTime r1 r2 (slotTime (v i) i))
  (dayOffset, sortAscBy (fun a b => a.1 * 60 + a.2 < b.1 * 60 + b.2) times)

/-- The degraded fallback (src/main.py line 735): `MAX_POSTS_PER_DAY`
instants 30 minutes apart starting right now (minutes since midnight). -/
def fallback_schedule (nowMinutes : Nat) : List Nat :=
  (List.range MAX_POSTS_PER_DAY).map (fun i => nowMinutes + 30 * i)

/-! ## Publishing (`publish_post`, src/main.py 623–676)

The Telegram transport is a collaborator: `f attempt` is what
`bot.send_message` does on the given attempt. The visible effects are
returned as a trace. -/

/-- Outcome of one `send_message` call. -/
inductive SendOutcome
  | ok
  | retryAfter (d : Nat)
  | timedOut
  | otherError
deriving DecidableEq, Repr

/-- Externally visible actions of the send loop. -/
inductive PubAction
  | sendMsg
  | sleep (seconds : Nat)
deriving DecidableEq, Repr

/-- State change on a delivered post (src/main.py lines 653–658):
record the fingerprint, and bump the source's priority when a source
was given. -/
def afterSuccess (st : BotState) (url title source : String) : BotState :=
  let st1 := save_hash st url title
  if source ≠ "" then
    { st1 with
      source_priority :=
        alistSet st1.source_priority source (alistGet st1.source_priority source 0 + 1) }
  else st1

/-- The `for attempt in range(max_retries)` send loop (src/main.py
lines 642–676), `max_retries = 3`. Returns (delivered?, new state, action
trace). `attempt = 2` is Python's `attempt == max_retries - 1`. -/
def publishGo (f : Nat → SendOutcome) (url title source : String) (now : Nat)
    (st : BotState) : Nat → Nat → Bool × BotState × List PubAction
  | _, 0 => (false, st, [])
  | attempt, fuel + 1 =>
    match f attempt with
    | .ok => (true, afterSuccess st url title source, [.sendMsg])
    | .retryAfter d =>
      let r := publishGo f url title source now st (attempt + 1) fuel
      (r.1, r.2.1, .sendMsg :: .sleep d :: r.2.2)
    | .timedOut =>
      let r := publishGo f url title source now st (attempt + 1) fuel
      (r.1, r.2.1, .sendMsg :: .sleep (2 ^ attempt) :: r.2.2)
    | .otherError =>
      if attempt = 2 then
        (false, if source ≠ "" then track_deleted_post st source now else st, [.sendMsg])
      else
        let r := publishGo f url title source now st (attempt + 1) fuel
        (r.1, r.2.1, .sendMsg :: .sleep (2 ^ attempt) :: r.2.2)

/-- The send loop entered at attempt 0 with the full budget of 3. -/
def publishLoop (f : Nat → SendOutcome) (url title source : String) (now : Nat)
    (st : BotState) : Bool × BotState × List PubAction :=
  publishGo f url title source now st 0 3

/-- The `use_text` local of `publish_post` (src/main.py line 635):
`full_text if full_text.strip() else content`. -/
def use_text_of (fullText content : String) : String :=
  if (pyStrip fullText.data).isEmpty = false then fullText else content

/-- `NewsBot.publish_post` (src/main.py lines 623–676). `cleanText` stands
for the BeautifulSoup-based `clean_text` collaborator and `fullText` for
the `fetch_full_article_text` result; both are external extraction
capabilities in the spec's sense. -/
def publish_post (cleanText : List Char → List Char) (f : Nat → SendOutcome)
    (st : BotState) (title content url source : String) (fullText : String)
    (now : Nat) : Bool × BotState × List PubAction :=
  if is_duplicate st url title then (false, st, [])
  else if is_finance_related title content = false then (false, st, [])
  else if (cleanText (use_text_of fullText content).data).length < MIN_CONTENT_LENGTH then
    (false, st, [])
  else publishLoop f url title source now st

/-! ## The run-cycle filtering steps (`NewsBot.run`) -/

/-- One step of the `seen_urls` accumulation of `run` (src/main.py
lines 790–793): keep the item only when its exact URL is unseen. -/
def dedupStep (acc : List NewsItem × List String) (item : NewsItem) :
    List NewsItem × List String :=
  if acc.2.contains item.url then acc
  else (acc.1 ++ [item], item.url :: acc.2)

/-- The `seen_urls` accumulation of `run`: keep the first item per exact
URL. -/
def dedupByUrl (items : List NewsItem) : List NewsItem :=
  (items.foldl dedupStep ([], [])).1

/-- The candidate filter of `run` (src/main.py lines 818–823): drop
duplicates, off-topic items and items whose cleaned content is shorter
than `MIN_CONTENT_LENGTH`. -/
def filter_news (cleanText : List Char → List Char) (st : BotState)
    (items : List NewsItem) : List NewsItem :=
  items.filter (fun item =>
    !is_duplicate st item.url item.title &&
    is_finance_related item.title item.content &&
    decide (MIN_CONTENT_LENGTH ≤ (cleanText item.content.data).length))

/-! ## Claim-side (spec-worded) definitions, for refinement comparisons -/

/-- The only video/promotional exclusion marker present in the code: feed
entries whose *title* contains `видео`/`video` are skipped at parse time
(src/main.py line 570). -/
def videoTitleSkip (title : String) : Bool :=
  hasSub (pyLower title.data) "видео".data || hasSub (pyLower title.data) "video".data

/-- Modelled from the spec: the exclusion markers C3 speaks of
(promotional/video markers). -/
def EXCLUSION_MARKERS : List String := ["видео", "video"]

/-- Modelled from the spec (C3): exclusion patterns veto to 0, otherwise
sum weight 2 for `core` keywords present and weight 1 for the others. -/
def specScore (core : String → Bool) (title content : String) : Nat :=
  let text := pyLower (title.data ++ ' ' :: content.data)
  if EXCLUSION_MARKERS.any (fun p => hasSub text p.data) then 0
  else
    ((FINANCE_KEYWORDS.filter (fun k => hasSub text k.data)).map
      (fun k => if core k then 2 else 1)).sum

/-- A sentence terminator. -/
def isTerm (c : Char) : Bool := c = '.' || c = '!' || c = '?'

/-- Index of the last sentence terminator of a string, if any. -/
def lastTermIdx : List Char → Option Nat
  | [] => none
  | c :: cs =>
    match lastTermIdx cs with
    | some j => some (j + 1)
    | none => if isTerm c then some 0 else none

/-- Modelled from the spec (C9): truncation with the terminator search
confined to the budget (the first `maxLength` characters). -/
def specTruncate (text : List Char) (maxLength : Nat) : List Char :=
  if text.length ≤ maxLength then text
  else
    match lastTermIdx (text.take maxLength) with
    | some r =>
      if (r : Int) > (maxLength : Int) - 100 then (text.take maxLength).take (r + 1)
      else text.take maxLength ++ ['…']
    | none => text.take maxLength ++ ['…']

/-! # Theorems -/

/-! ## C3 — relevance scoring -/

/-- The score of a text with no keywords and no exclusion markers is 0,
whatever the core set. -/
lemma specScore_empty (core : String → Bool) : specScore core "" "" = 0 := by
  have h1 : (EXCLUSION_MARKERS.any fun p =>
      hasSub (pyLower (("" : String).data ++ ' ' :: ("" : String).data)) p.data) = false := by
    decide
  have h2 : (FINANCE_KEYWORDS.filter fun k =>
      hasSub (pyLower (("" : String).data ++ ' ' :: ("" : String).data)) k.data) = [] := by
    decide
  simp only [specScore, h1, Bool.false_eq_true, if_false, h2, List.map_nil, List.sum_nil]

/-- A text carrying the video marker scores 0 under the claimed veto,
whatever the core set. -/
lemma specScore_veto (core : String → Bool) : specScore core "видео" "банк" = 0 := by
  have h1 : (EXCLUSION_MARKERS.any fun p =>
      hasSub (pyLower (("видео" : String).data ++ ' ' :: ("банк" : String).data)) p.data) = true := by
    decide
  simp only [specScore, h1, if_true]

/-- C3 (counterexample): the code's relevance check is *not* a
veto-then-weighted-threshold classifier. For no choice of core-keyword set
and threshold does `is_finance_related` coincide with
`score ≥ threshold` for the claimed score: the empty text forces a
positive threshold, while `видео банк` (vetoed to score 0 by the claimed
exclusion rule) is nevertheless accepted by the code. -/
theorem C3_counterexample :
    ¬ ∃ (core : String → Bool) (threshold : Nat),
      ∀ title content, is_finance_related title content =
        decide (threshold ≤ specScore core title content) := by
  rintro ⟨core, th, h⟩
  have h1 := h "" ""
  have h2 := h "видео" "банк"
  rw [specScore_empty core] at h1
  rw [specScore_veto core] at h2
  have e1 : is_finance_related "" "" = false := by decide
  have e2 : is_finance_related "видео" "банк" = true := by decide
  rw [e1] at h1
  rw [e2] at h2
  simp only [false_eq_decide_iff, true_eq_decide_iff] at h1 h2
  omega

/-- C3 (amended): `is_finance_related` holds exactly when at least one
lexicon keyword occurs as a substring of the lowercased
`title + " " + content`; there is no exclusion veto and no weighting
(in particular a promotional/video marker does not zero the result). -/
theorem C3_amended :
    (∀ title content : String,
      is_finance_related title content = true ↔
        ∃ k ∈ FINANCE_KEYWORDS,
          hasSub (pyLower (title.data ++ ' ' :: content.data)) k.data = true) ∧
    is_finance_related "видео" "банк" = true := by
  constructor
  · intro title content
    simp only [is_finance_related, List.any_eq_true]
  · decide

/-- C3 witness: the amended characterization evaluated on a concrete
finance headline. -/
theorem C3_amended_witness : is_finance_related "Банк поднял ставку" "" = true :=
  (C3_amended.1 "Банк поднял ставку" "").mpr ⟨"банк", by decide, by decide⟩

/-! ## C9 — sentence-boundary truncation -/

/-- `-1` is a lower bound of `rfind`. -/
lemma rfindC_ge (c : Char) : ∀ w : List Char, -1 ≤ rfindC w c
  | [] => by simp [rfindC]
  | a :: as => by
    have ih := rfindC_ge c as
    simp only [rfindC]
    split
    · omega
    · split <;> omega

/-- `some`-or-`-1` view of an optional index. -/
def termInt : Option Nat → Int
  | some r => r
  | none => -1

/-- The `max` of the three `rfind`s of `smart_truncate` is exactly the
index of the last sentence terminator. -/
lemma maxT_eq : ∀ w : List Char,
    max (rfindC w '.') (max (rfindC w '!') (rfindC w '?')) =
      termInt (lastTermIdx w)
  | [] => by simp [rfindC, lastTermIdx, termInt]
  | a :: as => by
    have ih := maxT_eq as
    have g1 := rfindC_ge '.' as
    have g2 := rfindC_ge '!' as
    have g3 := rfindC_ge '?' as
    simp only [rfindC, lastTermIdx]
    cases h : lastTermIdx as with
    | some j =>
      rw [h] at ih
      simp only [termInt] at ih ⊢
      have e1 : rfindC as '.' ≤ j := by omega
      have e2 : rfindC as '!' ≤ j := by omega
      have e3 : rfindC as '?' ≤ j := by omega
      split <;> split <;> split <;> · push_cast; omega
    | none =>
      rw [h] at ih
      simp only [termInt] at ih ⊢
      have e1 : rfindC as '.' = -1 := by omega
      have e2 : rfindC as '!' = -1 := by omega
      have e3 : rfindC as '?' = -1 := by omega
      rw [e1, e2, e3]
      norm_num
      by_cases h1 : a = '.'
      · simp [h1, isTerm, termInt]
      · by_cases h2 : a = '!'
        · simp [h1, h2, isTerm, termInt]
        · by_cases h3 : a = '?'
          · simp [h1, h2, h3, isTerm, termInt]
          · simp [h1, h2, h3, isTerm, termInt]

/-- A last-terminator index is in range. -/
lemma lastTermIdx_lt : ∀ (w : List Char) (r : Nat), lastTermIdx w = some r → r < w.length
  | [], r => by simp [lastTermIdx]
  | a :: as, r => by
    simp only [lastTermIdx, List.length_cons]
    cases h : lastTermIdx as with
    | some j =>
      intro hj
      have h2 := lastTermIdx_lt as j h
      have h3 : j + 1 = r := by injection hj
      omega
    | none =>
      by_cases hT : isTerm a = true
      · rw [if_pos hT]
        intro hj
        have h3 : 0 = r := by injection hj
        omega
      · rw [if_neg hT]
        intro hj
        cases hj

/-- C9 counterexample input: 150 `a`s, a period, then 49 `b`s — 200
characters whose only sentence terminator sits at index 150, just past a
150-character budget. -/
def c9Text : List Char := List.replicate 150 'a' ++ '.' :: List.replicate 49 'b'

set_option maxRecDepth 4000 in
/-- C9 (counterexample): on `c9Text` with budget 150 the code keeps 151
characters ending at the terminator at index 150 — a terminator *outside*
the budget — whereas the claim ("last terminator within the budget",
there is none here) demands the first 150 characters plus an ellipsis.
The claimed behaviour `specTruncate` and the code differ. -/
theorem C9_counterexample :
    smart_truncate c9Text 150 = List.replicate 150 'a' ++ ['.'] ∧
    specTruncate c9Text 150 = List.replicate 150 'a' ++ ['…'] ∧
    smart_truncate c9Text 150 ≠ specTruncate c9Text 150 := by
  refine ⟨by decide, by decide, by decide⟩

/-- C9 (amended): full characterization of `smart_truncate text L`, with
the terminator search running over the first `L + 1` characters (one past
the budget): text within budget is unchanged; when the last terminator of
the first `L + 1` characters sits at an index above `L - 100` the result
is the prefix ending at that terminator (so up to `L + 1` characters);
otherwise the first `L` characters plus an ellipsis — except that when no
terminator is found and `L < 99`, the `rfind = -1` sentinel passes the
`> L - 100` test and the result is empty. -/
theorem C9_amended (text : List Char) (L : Nat) :
    (text.length ≤ L → smart_truncate text L = text) ∧
    (L < text.length →
      match lastTermIdx (text.take (L + 1)) with
      | some r =>
          ((L : Int) - 100 < r → smart_truncate text L = text.take (r + 1)) ∧
          ((r : Int) ≤ (L : Int) - 100 →
            smart_truncate text L = text.take L ++ ['…'])
      | none =>
          (99 ≤ L → smart_truncate text L = text.take L ++ ['…']) ∧
          (L < 99 → smart_truncate text L = [])) := by
  constructor
  · intro h
    simp [smart_truncate, h]
  · intro h
    have hnot : ¬ text.length ≤ L := by omega
    cases ht : lastTermIdx (text.take (L + 1)) with
    | some r =>
      have hm := maxT_eq (text.take (L + 1))
      rw [ht] at hm
      simp only [termInt] at hm
      have hr2 : r < (text.take (L + 1)).length := lastTermIdx_lt _ r ht
      rw [List.length_take] at hr2
      have hrL : r ≤ L := by omega
      constructor
      · intro hr
        simp only [smart_truncate, if_neg hnot, hm]
        split
        · rw [List.take_take]
          have he : ((r : Int) + 1).toNat ⊓ (L + 1) = r + 1 := by omega
          rw [he]
        · exfalso; omega
      · intro hr
        simp only [smart_truncate, if_neg hnot, hm]
        split
        · exfalso; omega
        · rw [List.take_take]
          have he : L ⊓ (L + 1) = L := by omega
          rw [he]
    | none =>
      have hm := maxT_eq (text.take (L + 1))
      rw [ht] at hm
      simp only [termInt] at hm
      constructor
      · intro hL
        simp only [smart_truncate, if_neg hnot, hm]
        split
        · exfalso; omega
        · rw [List.take_take]
          have he : L ⊓ (L + 1) = L := by omega
          rw [he]
      · intro hL
        simp only [smart_truncate, if_neg hnot, hm]
        split
        · norm_num
        · exfalso; omega

/-- C9 witness: the amended theorem applied to a 13-character text with
budget 8 — the cut lands on the terminator at index 8. -/
theorem C9_amended_witness :
    smart_truncate ("abc. def! ghi").data 8 = ("abc. def!").data := by
  have h := (C9_amended ("abc. def! ghi").data 8).2 (by decide)
  have ht : lastTermIdx (("abc. def! ghi").data.take 9) = some 8 := by decide
  rw [ht] at h
  exact h.1 (by decide)

/-! ## C1 — recorded fingerprints exclude later candidates -/

set_option maxRecDepth 8000 in
/-- C1 (counterexample): the exclusion does *not* extend to arbitrarily
late cycles. `save_hash` records the fingerprint of `("u", "t")`, but a
later cycle reloads only the most recent 500 lines of
`posted_hashes.txt`; after 500 further entries the fingerprint is gone
and `is_duplicate` answers `false` again. -/
theorem C1_counterexample :
    is_duplicate
      { initState with
        posted_hashes :=
          load_hashes ((save_hash initState "u" "t").hash_file ++
            (List.range 500).map (fun n => "x" ++ toString n)) }
      "u" "t" = false := by
  decide

/-- C1 (amended): once `save_hash url title` runs, a candidate with the
same raw `(url, title)` pair is excluded everywhere — `is_duplicate`
answers `true`, the cycle filter of `run` drops such an item,
`publish_post` returns `false` with no send and no state change — in the
same cycle unconditionally, and in a later cycle provided at most 499
further fingerprints were appended before the reload (only the most
recent 500 file lines survive `load_hashes`). -/
theorem C1_amended (st : BotState) (url title : String) :
    (is_duplicate (save_hash st url title) url title = true) ∧
    (∀ (cleanText : List Char → List Char) (items : List NewsItem) (it : NewsItem),
      it ∈ filter_news cleanText (save_hash st url title) items →
      ¬(it.url = url ∧ it.title = title)) ∧
    (∀ (cleanText : List Char → List Char) (f : Nat → SendOutcome)
      (content source fullText : String) (now : Nat),
      publish_post cleanText f (save_hash st url title) title content url source
        fullText now = (false, save_hash st url title, [])) ∧
    (∀ later : List String, later.length ≤ 499 →
      is_duplicate
        { st with posted_hashes :=
            load_hashes ((save_hash st url title).hash_file ++ later) }
        url title = true) := by
  have hdup : is_duplicate (save_hash st url title) url title = true := by
    simp only [is_duplicate, save_hash]
    by_cases h : st.posted_hashes.contains (combinedHash url title) = true
    · rw [if_pos h]; exact h
    · rw [if_neg h]
      simp [List.contains_cons]
  refine ⟨hdup, ?_, ?_, ?_⟩
  · intro cleanText items it hmem hit
    simp only [filter_news] at hmem
    rw [List.mem_filter] at hmem
    have h2 := hmem.2
    rw [hit.1, hit.2, hdup] at h2
    simp at h2
  · intro cleanText f content source fullText now
    simp only [publish_post, hdup, if_true]
  · intro later hlen
    have hfile : (save_hash st url title).hash_file =
        st.hash_file ++ [combinedHash url title] := rfl
    simp only [is_duplicate, load_hashes, hfile]
    set c := combinedHash url title with hc
    have hmem : c ∈ st.hash_file ++ [c] ++ later := by
      simp
    split
    · apply List.elem_eq_true_of_mem
      rw [List.append_assoc, List.singleton_append]
      have hle : (st.hash_file ++ c :: later).length - 500 ≤ st.hash_file.length := by
        simp only [List.length_append, List.length_cons]
        omega
      rw [List.drop_append_of_le_length hle]
      exact List.mem_append_right _ (List.mem_cons_self c later)
    · apply List.elem_eq_true_of_mem
      rw [List.append_assoc, List.singleton_append]
      exact List.mem_append_right _ (List.mem_cons_self c later)

/-- C1 witness: the amended exclusion at a concrete recorded pair, with
one further fingerprint appended before the reload. -/
theorem C1_amended_witness :
    is_duplicate
      { initState with posted_hashes :=
          (load_hashes ((save_hash initState "u" "t").hash_file ++ ["x0"])) }
      "u" "t" = true :=
  (C1_amended initState "u" "t").2.2.2 ["x0"] (by decide)

/-! ## C2 — fingerprints of surface variants -/

set_option maxRecDepth 8000 in
/-- C2 (counterexample): there is no canonicalization — the fingerprint
hashes the raw URL and raw title. Adding a tracking parameter to the URL,
or changing the title's casing, or adding trailing punctuation, each
yields a *different* fingerprint, so such candidates are not treated as
the same story. -/
theorem C2_counterexample :
    combinedHash "https://example.com/news" "Банк поднял ставку" ≠
      combinedHash "https://example.com/news?utm_source=rss" "Банк поднял ставку" ∧
    combinedHash "https://example.com/news" "Банк поднял ставку" ≠
      combinedHash "https://example.com/news" "банк поднял ставку" ∧
    combinedHash "https://example.com/news" "Банк поднял ставку" ≠
      combinedHash "https://example.com/news" "Банк поднял ставку." := by
  refine ⟨by decide, by decide, by decide⟩

/-! ## C8 — classification rejections skip silently -/

/-- C8: if at publish time the item is a duplicate, off-topic, or its
cleaned text is below `MIN_CONTENT_LENGTH`, `publish_post` returns
`false` with the state unchanged (no fingerprint recorded, no priority
change) and an empty action trace (no send, no sleep, no retry). -/
theorem C8_skip_gates (cleanText : List Char → List Char) (f : Nat → SendOutcome)
    (st : BotState) (title content url source fullText : String) (now : Nat)
    (h : is_duplicate st url title = true ∨
      is_finance_related title content = false ∨
      (cleanText (use_text_of fullText content).data).length < MIN_CONTENT_LENGTH) :
    publish_post cleanText f st title content url source fullText now =
      (false, st, []) := by
  unfold publish_post
  rcases h with h | h | h
  · rw [if_pos h]
  · by_cases h1 : is_duplicate st url title = true
    · rw [if_pos h1]
    · rw [if_neg h1, if_pos h]
  · by_cases h1 : is_duplicate st url title = true
    · rw [if_pos h1]
    · rw [if_neg h1]
      by_cases h2 : is_finance_related title content = false
      · rw [if_pos h2]
      · rw [if_neg h2, if_pos h]

/-- C8 witness: a concrete off-topic item is skipped with no send and no
state change. -/
theorem C8_skip_gates_witness :
    publish_post id (fun _ => SendOutcome.ok) initState "hello" "world"
      "http://e" "s" "" 0 = (false, initState, []) :=
  C8_skip_gates id (fun _ => SendOutcome.ok) initState "hello" "world"
    "http://e" "s" "" 0 (Or.inr (Or.inl (by decide)))

/-! ## C6 / C7 — the send-retry loop -/

/-- Is this trace entry a send? -/
def isSendA : PubAction → Bool
  | .sendMsg => true
  | .sleep _ => false

/-- Number of delivery attempts recorded in a trace. -/
def sendCount (tr : List PubAction) : Nat := (tr.filter isSendA).length

lemma sendCount_send (tr : List PubAction) :
    sendCount (.sendMsg :: tr) = sendCount tr + 1 := by
  simp [sendCount, isSendA]

lemma sendCount_sleep (d : Nat) (tr : List PubAction) :
    sendCount (.sleep d :: tr) = sendCount tr := by
  simp [sendCount, isSendA]

/-- Any entry into the send loop with fuel left performs at least one send. -/
lemma publishGo_send_pos (f : Nat → SendOutcome) (url title source : String)
    (now : Nat) (st : BotState) (attempt fuel : Nat) (h : 1 ≤ fuel) :
    1 ≤ sendCount (publishGo f url title source now st attempt fuel).2.2 := by
  cases fuel with
  | zero => omega
  | succ n =>
    cases hf : f attempt with
    | ok => simp [publishGo, hf, sendCount_send]
    | retryAfter d => simp [publishGo, hf, sendCount_send, sendCount_sleep]
    | timedOut => simp [publishGo, hf, sendCount_send, sendCount_sleep]
    | otherError =>
      by_cases ha : attempt = 2
      · subst ha
        simp [publishGo, hf, sendCount_send]
      · simp [publishGo, hf, ha, sendCount_send, sendCount_sleep]

/-- C6 (counterexample): it is *not* the case that a rate-limited send is
always retried: rate-limit failures consume the 3-attempt budget, and a
rate limit on the final attempt sleeps and then gives the item up. With
every attempt answering `retry_after = 5`, the third send is rate limited
yet no fourth send happens. -/
theorem C6_counterexample :
    ¬ (∀ (f : Nat → SendOutcome) (url title source : String) (now : Nat)
        (st : BotState) (i d : Nat),
        f i = .retryAfter d →
        i < sendCount (publishLoop f url title source now st).2.2 →
        i + 1 < sendCount (publishLoop f url title source now st).2.2) := by
  intro h
  have h2 := h (fun _ => .retryAfter 5) "u" "t" "s" 0 initState 2 5 rfl (by decide)
  exact absurd h2 (by decide)

/-- C6 (amended): a rate-limited send waits exactly the server-mandated
duration and is then retried — but only while budget remains: rate limits
count against the same 3-attempt budget as other failures, and three
rate limits in a row abandon the item (returning `false`, with no source
penalty and the state unchanged). -/
theorem C6_amended (f : Nat → SendOutcome) (url title source : String)
    (now : Nat) (st : BotState) (d0 d1 d2 : Nat) (h0 : f 0 = .retryAfter d0) :
    (∃ tr', (publishLoop f url title source now st).2.2 =
        .sendMsg :: .sleep d0 :: tr' ∧ 1 ≤ sendCount tr') ∧
    (f 1 = .retryAfter d1 → f 2 = .retryAfter d2 →
      publishLoop f url title source now st =
        (false, st,
          [.sendMsg, .sleep d0, .sendMsg, .sleep d1, .sendMsg, .sleep d2])) := by
  constructor
  · refine ⟨(publishGo f url title source now st 1 2).2.2, ?_, ?_⟩
    · simp [publishLoop, publishGo, h0]
    · exact publishGo_send_pos f url title source now st 1 2 (by omega)
  · intro h1 h2
    simp [publishLoop, publishGo, h0, h1, h2]

/-- C6 witness: three straight `retry_after = 5` answers produce exactly
three sends, each followed by the mandated 5-unit wait, then give up. -/
theorem C6_amended_witness :
    publishLoop (fun _ => SendOutcome.retryAfter 5) "u" "t" "s" 0 initState =
      (false, initState,
        [.sendMsg, .sleep 5, .sendMsg, .sleep 5, .sendMsg, .sleep 5]) :=
  (C6_amended (fun _ => SendOutcome.retryAfter 5) "u" "t" "s" 0 initState
    5 5 5 rfl).2 rfl rfl

/-- C7 (counterexample): exhausting the retry budget does *not* always
penalize the source: three timeouts in a row return `false` with the
state (priority map and failure tracker) untouched. -/
theorem C7_counterexample :
    ¬ (∀ (f : Nat → SendOutcome) (url title source : String) (now : Nat)
        (st : BotState),
        source ≠ "" →
        (publishLoop f url title source now st).1 = false →
        (publishLoop f url title source now st).2.1 =
          track_deleted_post st source now) := by
  intro h
  have h2 := h (fun _ => .timedOut) "u" "t" "s" 0 initState (by decide) (by decide)
  exact absurd h2 (by decide)

/-- C7 (amended): the loop fails exactly when none of the three attempts
succeeds, and on failure the source is penalized (priority − 2 and a
last-failure timestamp, via `track_deleted_post`) precisely when the
*final* attempt failed with a generic error and a source was given;
timeout or rate-limit exhaustion leaves the state unchanged. -/
theorem C7_amended (f : Nat → SendOutcome) (url title source : String)
    (now : Nat) (st : BotState) :
    ((publishLoop f url title source now st).1 = false ↔
      f 0 ≠ .ok ∧ f 1 ≠ .ok ∧ f 2 ≠ .ok) ∧
    (f 0 ≠ .ok → f 1 ≠ .ok → f 2 ≠ .ok →
      (publishLoop f url title source now st).2.1 =
        if f 2 = .otherError ∧ source ≠ "" then track_deleted_post st source now
        else st) := by
  cases h0 : f 0 <;> cases h1 : f 1 <;> cases h2 : f 2 <;>
    simp [publishLoop, publishGo, h0, h1, h2]

/-- C7 witness: a generic error on the final attempt (after two timeouts)
penalizes the source. -/
theorem C7_amended_witness :
    (publishLoop (fun i => if i = 2 then SendOutcome.otherError else SendOutcome.timedOut)
      "u" "t" "s" 7 initState).2.1 = track_deleted_post initState "s" 7 := by
  have h := (C7_amended
    (fun i => if i = 2 then SendOutcome.otherError else SendOutcome.timedOut)
    "u" "t" "s" 7 initState).2 (by decide) (by decide) (by decide)
  rw [h]
  rw [if_pos ⟨rfl, by decide⟩]

/-! ## C5 — the posting schedule -/

lemma insertAscBy_perm {α : Type} (lt : α → α → Bool) (x : α) :
    ∀ l : List α, (insertAscBy lt x l).Perm (x :: l)
  | [] => List.Perm.refl _
  | y :: ys => by
    simp only [insertAscBy]
    split
    · exact List.Perm.refl _
    · exact ((insertAscBy_perm lt x ys).cons y).trans (List.Perm.swap x y ys)

lemma sortAscBy_go_perm {α : Type} (lt : α → α → Bool) :
    ∀ (l : List α) (acc : List α),
      (l.foldl (fun acc x => insertAscBy lt x acc) acc).Perm (l ++ acc)
  | [], acc => by simp
  | x :: xs, acc => by
    simp only [List.foldl_cons]
    refine (sortAscBy_go_perm lt xs (insertAscBy lt x acc)).trans ?_
    refine (List.Perm.append_left xs (insertAscBy_perm lt x acc)).trans ?_
    simp only [List.cons_append]
    exact List.perm_middle

lemma sortAscBy_perm {α : Type} (lt : α → α → Bool) (l : List α) :
    (sortAscBy lt l).Perm l := by
  simpa using sortAscBy_go_perm lt l []

/-- Inserting into a list ascending by `key` keeps it ascending. -/
lemma insertAscBy_sorted {α : Type} (key : α → Nat) (x : α) :
    ∀ l : List α, l.Pairwise (fun a b => key a ≤ key b) →
      (insertAscBy (fun a b => key a < key b) x l).Pairwise
        (fun a b => key a ≤ key b)
  | [], _ => by simp [insertAscBy]
  | y :: ys, h => by
    rcases List.pairwise_cons.mp h with ⟨hy, hys⟩
    simp only [insertAscBy]
    split
    · next hlt =>
      have hxy : key x < key y := of_decide_eq_true hlt
      refine List.pairwise_cons.mpr ⟨?_, h⟩
      intro z hz
      rcases List.mem_cons.mp hz with rfl | hz
      · omega
      · exact le_trans (by omega) (hy z hz)
    · next hlt =>
      have hxy : ¬ key x < key y := by
        intro hc
        exact absurd (decide_eq_true hc) hlt
      refine List.pairwise_cons.mpr ⟨?_, insertAscBy_sorted key x ys hys⟩
      intro z hz
      have hz' := (insertAscBy_perm _ x ys).mem_iff.mp hz
      rcases List.mem_cons.mp hz' with rfl | hz'
      · omega
      · exact hy z hz'

/-- The stable sort sorts (by a `Nat` key). -/
lemma sortAscBy_sorted {α : Type} (key : α → Nat) (l : List α) :
    (sortAscBy (fun a b => key a < key b) l).Pairwise
      (fun a b => key a ≤ key b) := by
  have main : ∀ (l acc : List α),
      acc.Pairwise (fun a b => key a ≤ key b) →
      (l.foldl (fun acc x => insertAscBy (fun a b => key a < key b) x acc)
        acc).Pairwise (fun a b => key a ≤ key b) := by
    intro l
    induction l with
    | nil => intro acc h; simpa using h
    | cons x xs ih =>
      intro acc h
      simp only [List.foldl_cons]
      exact ih _ (insertAscBy_sorted key x acc h)
  exact main l [] (by simp)

/-- The floor-split of a minute total in `[150, 570]`: the derived hour
offset lies in `[2, 9]` and the minute remainder in `[0, 59]`. -/
lemma floorSplit (total : ℚ) (h1 : 150 ≤ total) (h2 : total ≤ 570) :
    2 ≤ Int.floor (total / 60) ∧ Int.floor (total / 60) ≤ 9 ∧
    0 ≤ Int.floor (total - 60 * Int.floor (total / 60)) ∧
    Int.floor (total - 60 * Int.floor (total / 60)) ≤ 59 := by
  have hq1 : 2 ≤ Int.floor (total / 60) := by
    rw [Int.le_floor]
    rw [le_div_iff₀ (by norm_num : (0 : ℚ) < 60)]
    push_cast
    linarith
  have hq2 : Int.floor (total / 60) ≤ 9 := by
    have : Int.floor (total / 60) < 10 := by
      rw [Int.floor_lt]
      rw [div_lt_iff₀ (by norm_num : (0 : ℚ) < 60)]
      push_cast
      linarith
    omega
  have hlow : (60 : ℚ) * Int.floor (total / 60) ≤ total := by
    have := Int.floor_le (total / 60)
    have h60 : (0 : ℚ) < 60 := by norm_num
    calc (60 : ℚ) * Int.floor (total / 60) ≤ 60 * (total / 60) := by
          exact mul_le_mul_of_nonneg_left this (by norm_num)
      _ = total := by ring
  have hhigh : total < 60 * Int.floor (total / 60) + 60 := by
    have := Int.lt_floor_add_one (total / 60)
    have h60 : (0 : ℚ) < 60 := by norm_num
    have h3 : total / 60 * 60 < (Int.floor (total / 60) + 1) * 60 := by
      exact mul_lt_mul_of_pos_right this h60
    calc total = total / 60 * 60 := by ring
      _ < (Int.floor (total / 60) + 1) * 60 := h3
      _ = 60 * Int.floor (total / 60) + 60 := by ring
  refine ⟨hq1, hq2, ?_, ?_⟩
  · rw [Int.le_floor]
    push_cast
    linarith
  · have : Int.floor (total - 60 * Int.floor (total / 60)) < 60 := by
      rw [Int.floor_lt]
      push_cast
      linarith
    omega

/-- Slot bounds: any jitter in `[-30, 30]` keeps an unclamped slot inside
11:00–18:59. -/
lemma slotTime_bounds (v : ℚ) (i : Nat) (hi : i < 3)
    (h1 : -30 ≤ v) (h2 : v ≤ 30) :
    11 ≤ (slotTime v i).1 ∧ (slotTime v i).1 ≤ 18 ∧ (slotTime v i).2 ≤ 59 := by
  have hbase : (150 : ℚ) ≤ (720 * (i + 1) : ℚ) / 4 + v ∧
      (720 * (i + 1) : ℚ) / 4 + v ≤ 570 := by
    interval_cases i <;> constructor <;> norm_num <;> linarith
  have hf := floorSplit ((720 * (i + 1) : ℚ) / 4 + v) hbase.1 hbase.2
  simp only [slotTime]
  refine ⟨by omega, by omega, by omega⟩

/-- The clamp of `generate_post_schedule` does nothing inside the window. -/
lemma clampTime_id (r1 r2 : Nat) (t : Nat × Nat) (h1 : 9 ≤ t.1) (h2 : t.1 < 21) :
    clampTime r1 r2 t = t := by
  unfold clampTime
  rw [if_neg (by omega), if_neg (by omega)]

/-- C5 (counterexample): the degraded fallback is *not* confined to the
delivery window: invoked at 02:00 (minute 120 of the day) it schedules
minutes 120, 150 and 180, all well before the 9:00 window start. -/
theorem C5_counterexample :
    ¬ (∀ t ∈ fallback_schedule 120, 9 * 60 ≤ t ∧ t < 21 * 60) := by
  decide

/-- C5 (amended): the happy path always returns exactly
`MAX_POSTS_PER_DAY` times, sorted ascending, each inside the 9:00–21:00
window of the relevant day, rolling to the next day exactly when the
current hour is past the window; the degraded fallback also returns
exactly `MAX_POSTS_PER_DAY` sorted times, but spaced 30 minutes from the
current instant and *not* confined to the window. -/
theorem C5_amended (nowHour : Nat) (v : Nat → ℚ) (r1 r2 : Nat)
    (hv : ∀ i, i < MAX_POSTS_PER_DAY → -30 ≤ v i ∧ v i ≤ 30) :
    (generate_post_schedule nowHour v r1 r2).2.length = MAX_POSTS_PER_DAY ∧
    (generate_post_schedule nowHour v r1 r2).2.Pairwise
      (fun a b => a.1 * 60 + a.2 ≤ b.1 * 60 + b.2) ∧
    (∀ t ∈ (generate_post_schedule nowHour v r1 r2).2,
      9 * 60 ≤ t.1 * 60 + t.2 ∧ t.1 * 60 + t.2 < 21 * 60) ∧
    ((generate_post_schedule nowHour v r1 r2).1 = 1 ↔ 21 ≤ nowHour) ∧
    (∀ nowMinutes : Nat,
      (fallback_schedule nowMinutes).length = MAX_POSTS_PER_DAY ∧
      (fallback_schedule nowMinutes).Pairwise (fun a b => a ≤ b)) := by
  have hmem : ∀ t ∈ (List.range MAX_POSTS_PER_DAY).map
      (fun i => clampTime r1 r2 (slotTime (v i) i)),
      9 * 60 ≤ t.1 * 60 + t.2 ∧ t.1 * 60 + t.2 < 21 * 60 := by
    intro t ht
    rcases List.mem_map.mp ht with ⟨i, hi, rfl⟩
    have hi3 : i < 3 := by simpa [MAX_POSTS_PER_DAY] using List.mem_range.mp hi
    have hb := slotTime_bounds (v i) i hi3 (hv i hi3).1 (hv i hi3).2
    rw [clampTime_id r1 r2 _ (by omega) (by omega)]
    omega
  have hperm := sortAscBy_perm
    (fun (a b : Nat × Nat) => decide (a.1 * 60 + a.2 < b.1 * 60 + b.2))
    ((List.range MAX_POSTS_PER_DAY).map (fun i => clampTime r1 r2 (slotTime (v i) i)))
  refine ⟨?_, ?_, ?_, ?_, ?_⟩
  · simp only [generate_post_schedule]
    rw [hperm.length_eq]
    simp
  · exact sortAscBy_sorted (fun t : Nat × Nat => t.1 * 60 + t.2) _
  · intro t ht
    exact hmem t (hperm.mem_iff.mp ht)
  · simp only [generate_post_schedule]
    split
    · next h => simp; omega
    · split
      · next h2 => simp; omega
      · next h1 h2 => simp; omega
  · intro nowMinutes
    constructor
    · simp [fallback_schedule, MAX_POSTS_PER_DAY]
    · have hr : List.range MAX_POSTS_PER_DAY = [0, 1, 2] := rfl
      simp only [fallback_schedule, hr, List.map_cons, List.map_nil]
      refine List.pairwise_cons.mpr ⟨?_, List.pairwise_cons.mpr ⟨?_, ?_⟩⟩
      · intro b hb
        rcases List.mem_cons.mp hb with rfl | hb
        · omega
        · rcases List.mem_cons.mp hb with rfl | hb
          · omega
          · cases hb
      · intro b hb
        rcases List.mem_cons.mp hb with rfl | hb
        · omega
        · cases hb
      · simp

/-- C5 witness: the amended schedule guarantees evaluated at 10:00 with no
jitter. -/
theorem C5_amended_witness :
    (generate_post_schedule 10 (fun _ => 0) 0 30).2.length = MAX_POSTS_PER_DAY :=
  (C5_amended 10 (fun _ => 0) 0 30
    (fun i _ => ⟨by norm_num, by norm_num⟩)).1

/-! ## Grouping lemmas (shared by C2, C4 and C10) -/

/-- Adding one item touches exactly the bucket of its source. -/
lemma insertGrouped_get (p : NewsItem) (s : String) :
    ∀ acc, alistGet (insertGrouped acc p) s [] =
      if p.source = s then alistGet acc s [] ++ [p] else alistGet acc s []
  | [] => by
    by_cases h : p.source = s <;>
      simp [insertGrouped, alistGet, h]
  | (t, b) :: rest => by
    by_cases h1 : t = p.source
    · by_cases h2 : p.source = s
      · simp [insertGrouped, alistGet, h1, h1.trans h2, h2]
      · have ht : ¬ t = s := by rw [h1]; exact h2
        simp [insertGrouped, alistGet, h1, ht, h2]
    · by_cases h2 : t = s
      · have hps : ¬ p.source = s := fun hc => h1 (h2.trans hc.symm)
        have hsp : ¬ s = p.source := fun hc => hps hc.symm
        simp [insertGrouped, alistGet, h1, h2, hps, hsp]
      · simp [insertGrouped, alistGet, h1, h2, insertGrouped_get p s rest]

/-- After grouping, the bucket of `s` is exactly the input subsequence
with source `s`. -/
lemma groupBySource_get (news : List NewsItem) (s : String) :
    alistGet (groupBySource news) s [] = news.filter (fun p => p.source = s) := by
  suffices h : ∀ acc, alistGet (news.foldl insertGrouped acc) s [] =
      alistGet acc s [] ++ news.filter (fun p => p.source = s) by
    simpa [groupBySource, alistGet] using h []
  induction news with
  | nil => intro acc; simp
  | cons p ps ih =>
    intro acc
    simp only [List.foldl_cons, ih (insertGrouped acc p), insertGrouped_get p s acc,
      List.filter_cons]
    by_cases h : p.source = s
    · simp [h, List.append_assoc]
    · simp [h]

/-- Group keys accumulate in first-seen order. -/
lemma insertGrouped_keys (p : NewsItem) :
    ∀ acc, (insertGrouped acc p).map (·.1) =
      if p.source ∈ acc.map (·.1) then acc.map (·.1)
      else acc.map (·.1) ++ [p.source]
  | [] => by simp [insertGrouped]
  | (t, b) :: rest => by
    by_cases h1 : t = p.source
    · subst h1
      simp [insertGrouped]
    · have h1' : p.source ≠ t := fun h => h1 h.symm
      simp only [insertGrouped, if_neg h1, List.map_cons, List.mem_cons, h1',
        false_or, insertGrouped_keys p rest]
      by_cases h2 : p.source ∈ rest.map (·.1) <;> simp [h2]

/-- Group keys are pairwise distinct. -/
lemma groupBySource_keys_nodup (news : List NewsItem) :
    ((groupBySource news).map (·.1)).Nodup := by
  suffices h : ∀ acc : List (String × List NewsItem), (acc.map (·.1)).Nodup →
      ((news.foldl insertGrouped acc).map (·.1)).Nodup by
    exact h [] (by simp)
  induction news with
  | nil => intro acc hacc; simpa using hacc
  | cons p ps ih =>
    intro acc hacc
    simp only [List.foldl_cons]
    refine ih _ ?_
    rw [insertGrouped_keys p acc]
    by_cases h : p.source ∈ acc.map (·.1)
    · simpa [h] using hacc
    · rw [if_neg h]
      exact ((List.perm_append_singleton _ _).nodup_iff).mpr
        (List.nodup_cons.mpr ⟨h, hacc⟩)

lemma insertDescBy_perm {α : Type} (gt : α → α → Bool) (x : α) :
    ∀ l : List α, (insertDescBy gt x l).Perm (x :: l)
  | [] => List.Perm.refl _
  | y :: ys => by
    simp only [insertDescBy]
    split
    · exact List.Perm.refl _
    · exact ((insertDescBy_perm gt x ys).cons y).trans (List.Perm.swap x y ys)

lemma sortDescBy_go_perm {α : Type} (gt : α → α → Bool) :
    ∀ (l : List α) (acc : List α),
      (l.foldl (fun acc x => insertDescBy gt x acc) acc).Perm (l ++ acc)
  | [], acc => by simp
  | x :: xs, acc => by
    simp only [List.foldl_cons]
    refine (sortDescBy_go_perm gt xs (insertDescBy gt x acc)).trans ?_
    refine (List.Perm.append_left xs (insertDescBy_perm gt x acc)).trans ?_
    simp only [List.cons_append]
    exact List.perm_middle

lemma sortDescBy_perm {α : Type} (gt : α → α → Bool) (l : List α) :
    (sortDescBy gt l).Perm l := by
  simpa using sortDescBy_go_perm gt l []

/-- A bucket head with key `s` carries source `s`. -/
lemma head?_filter_src (l : List NewsItem) (s : String) (it : NewsItem)
    (h : (l.filter (fun p => p.source = s)).head? = some it) : it.source = s := by
  cases hf : l.filter (fun p => p.source = s) with
  | nil => rw [hf] at h; cases h
  | cons b t =>
    rw [hf] at h
    have hb : b ∈ l.filter (fun p => p.source = s) := by
      rw [hf]; exact List.mem_cons_self b t
    have hit : b = it := by injection h
    subst hit
    exact of_decide_eq_true (List.mem_filter.mp hb).2

/-! ## C2 (amended part) — batch collapse is exact-URL dedup -/

/-- C2 (amended): during ingestion, candidates collapse exactly by raw
URL: `dedupByUrl` keeps pairwise-distinct URLs, every input URL is
represented, and every kept item comes from the input. -/
theorem C2_amended (items : List NewsItem) :
    ((dedupByUrl items).map (·.url)).Nodup ∧
    (∀ it ∈ items, it.url ∈ (dedupByUrl items).map (·.url)) ∧
    (∀ j ∈ dedupByUrl items, j ∈ items) := by
  suffices h : ∀ (l : List NewsItem) (acc : List NewsItem × List String),
      (∀ u, acc.2.contains u = true ↔ u ∈ acc.1.map (·.url)) →
      ((acc.1.map (·.url)).Nodup) →
      (((l.foldl dedupStep acc).1.map (·.url)).Nodup ∧
        (∀ j ∈ acc.1, j ∈ (l.foldl dedupStep acc).1) ∧
        (∀ it ∈ l, it.url ∈ (l.foldl dedupStep acc).1.map (·.url)) ∧
        (∀ j ∈ (l.foldl dedupStep acc).1, j ∈ acc.1 ∨ j ∈ l)) by
    have h2 := h items ([], []) (by simp) (by simp)
    refine ⟨h2.1, h2.2.2.1, ?_⟩
    intro j hj
    rcases h2.2.2.2 j hj with hc | hc
    · cases hc
    · exact hc
  intro l
  induction l with
  | nil =>
    intro acc hinv hnd
    exact ⟨hnd, fun j hj => hj, by simp, fun j hj => Or.inl hj⟩
  | cons x xs ih =>
    intro acc hinv hnd
    simp only [List.foldl_cons]
    by_cases hx : acc.2.contains x.url = true
    · have hstep : dedupStep acc x = acc := by
        unfold dedupStep
        rw [if_pos hx]
      rw [hstep]
      obtain ⟨a1, a2, a3, a4⟩ := ih acc hinv hnd
      refine ⟨a1, a2, ?_, ?_⟩
      · intro it hit
        rcases List.mem_cons.mp hit with rfl | hit
        · have hu : it.url ∈ acc.1.map (·.url) := (hinv it.url).mp hx
          rcases List.mem_map.mp hu with ⟨j, hj, hju⟩
          rw [← hju]
          exact List.mem_map_of_mem _ (a2 j hj)
        · exact a3 it hit
      · intro j hj
        rcases a4 j hj with hc | hc
        · exact Or.inl hc
        · exact Or.inr (List.mem_cons_of_mem x hc)
    · have hstep : dedupStep acc x = (acc.1 ++ [x], x.url :: acc.2) := by
        unfold dedupStep
        rw [if_neg hx]
      rw [hstep]
      have hxnot : x.url ∉ acc.1.map (·.url) := fun hc => hx ((hinv x.url).mpr hc)
      have hinv' : ∀ u, (x.url :: acc.2).contains u = true ↔
          u ∈ (acc.1 ++ [x]).map (·.url) := by
        intro u
        simp only [List.contains_cons, List.map_append, List.map_cons, List.map_nil,
          Bool.or_eq_true, beq_iff_eq, List.mem_append, List.mem_singleton]
        rw [hinv u]
        constructor
        · rintro (rfl | hu)
          · exact Or.inr rfl
          · exact Or.inl hu
        · rintro (hu | rfl)
          · exact Or.inr hu
          · exact Or.inl rfl
      have hnd' : ((acc.1 ++ [x]).map (·.url)).Nodup := by
        rw [List.map_append]
        exact ((List.perm_append_singleton _ _).nodup_iff).mpr
          (List.nodup_cons.mpr ⟨hxnot, hnd⟩)
      obtain ⟨a1, a2, a3, a4⟩ := ih (acc.1 ++ [x], x.url :: acc.2) hinv' hnd'
      refine ⟨a1, ?_, ?_, ?_⟩
      · intro j hj
        exact a2 j (List.mem_append_left _ hj)
      · intro it hit
        rcases List.mem_cons.mp hit with rfl | hit
        · have : it ∈ (xs.foldl dedupStep (acc.1 ++ [it], it.url :: acc.2)).1 :=
            a2 it (List.mem_append_right _ (List.mem_singleton.mpr rfl))
          exact List.mem_map_of_mem _ this
        · exact a3 it hit
      · intro j hj
        rcases a4 j hj with hc | hc
        · rcases List.mem_append.mp hc with hc2 | hc2
          · exact Or.inl hc2
          · exact Or.inr (List.mem_cons.mpr (Or.inl (List.mem_singleton.mp hc2)))
        · exact Or.inr (List.mem_cons_of_mem x hc)

/-- C2 witness: two same-URL items collapse — the second item's URL is
still represented after dedup (by the first). -/
theorem C2_amended_witness :
    (⟨"t2", "https://e.com/a", "c2", "", "s2"⟩ : NewsItem).url ∈
      (dedupByUrl [⟨"t1", "https://e.com/a", "c1", "", "s1"⟩,
        ⟨"t2", "https://e.com/a", "c2", "", "s2"⟩]).map (·.url) :=
  (C2_amended [⟨"t1", "https://e.com/a", "c1", "", "s1"⟩,
    ⟨"t2", "https://e.com/a", "c2", "", "s2"⟩]).2.1
    ⟨"t2", "https://e.com/a", "c2", "", "s2"⟩ (by simp)

/-! ## C10 — at most one item per source -/

/-- The sources of the selected representatives form a sublist of the
source order. -/
lemma selected_src_sublist (news : List NewsItem) :
    ∀ order : List String,
      ((order.filterMap
        (fun s => (alistGet (groupBySource news) s []).head?)).map
          (·.source)).Sublist order := by
  intro order
  induction order with
  | nil => simp
  | cons s rest ih =>
    simp only [List.filterMap_cons]
    cases hh : (alistGet (groupBySource news) s []).head? with
    | none => exact ih.cons s
    | some it =>
      have hsrc : it.source = s := by
        rw [groupBySource_get] at hh
        exact head?_filter_src news s it hh
      simp only [List.map_cons, hsrc]
      exact ih.cons₂ s

/-- C10: `prioritize_sources` keeps at most `MAX_POSTS_PER_DAY` items,
never two items of the same source, and each kept item is the *first*
input candidate of its source. -/
theorem C10_one_per_source (weight : String → ℚ) (news : List NewsItem) :
    (prioritize_sources weight news).length ≤ MAX_POSTS_PER_DAY ∧
    ((prioritize_sources weight news).map (·.source)).Nodup ∧
    ∀ it ∈ prioritize_sources weight news,
      (news.filter (fun p => p.source = it.source)).head? = some it := by
  by_cases hnil : news.isEmpty
  · simp [prioritize_sources, hnil, MAX_POSTS_PER_DAY]
  · unfold prioritize_sources
    rw [if_neg hnil]
    set order := sortDescBy (fun x y => weight y < weight x)
      ((groupBySource news).map (·.1)) with horder
    have hord_nodup : order.Nodup :=
      ((sortDescBy_perm _ _).nodup_iff).mpr (groupBySource_keys_nodup news)
    set selected := order.filterMap
      (fun s => (alistGet (groupBySource news) s []).head?) with hsel
    refine ⟨?_, ?_, ?_⟩
    · exact List.length_take_le _ _
    · have hsub : (selected.map (·.source)).Sublist order :=
        selected_src_sublist news order
      have hnd : (selected.map (·.source)).Nodup := hord_nodup.sublist hsub
      rw [List.map_take]
      exact hnd.sublist (List.take_sublist _ _)
    · intro it hit
      have hit2 : it ∈ selected := List.mem_of_mem_take hit
      rcases List.mem_filterMap.mp hit2 with ⟨s, _, hh⟩
      have hsrc : it.source = s := by
        rw [groupBySource_get] at hh
        exact head?_filter_src news s it hh
      rw [groupBySource_get] at hh
      rw [hsrc]
      exact hh

/-- C10 witness: with one source supplying two candidates and another one,
the selection keeps the first candidate of the double source. -/
theorem C10_one_per_source_witness :
    ([(⟨"a1", "u1", "c", "", "A"⟩ : NewsItem), ⟨"a2", "u2", "c", "", "A"⟩,
        ⟨"b1", "u3", "c", "", "B"⟩].filter
      (fun p => p.source = (⟨"a1", "u1", "c", "", "A"⟩ : NewsItem).source)).head? =
      some ⟨"a1", "u1", "c", "", "A"⟩ :=
  (C10_one_per_source (fun _ => 0)
    [⟨"a1", "u1", "c", "", "A"⟩, ⟨"a2", "u2", "c", "", "A"⟩,
      ⟨"b1", "u3", "c", "", "B"⟩]).2.2
    ⟨"a1", "u1", "c", "", "A"⟩ (by decide)

/-! ## C4 — consecutive-source avoidance

The invariants: buckets carry their own source (`BWF`), keys are distinct
(`KND`) and covered by the sweep order (`KeysIn`); `bucketsMS` is the
multiset of posts still waiting; `GoodRes` is the suffix property — any
adjacent same-source pair freezes both the rest of the result and the
whole backlog onto that source. -/

/-- The posts still waiting in the buckets, as a multiset. -/
def bucketsMS (B : List (String × List NewsItem)) : Multiset NewsItem :=
  (B.map (fun kv => (kv.2 : Multiset NewsItem))).sum

/-- Every bucket holds only posts of its own source. -/
def BWF (B : List (String × List NewsItem)) : Prop :=
  ∀ kv ∈ B, ∀ x ∈ kv.2, x.source = kv.1

/-- Bucket keys are pairwise distinct. -/
def KND (B : List (String × List NewsItem)) : Prop :=
  (B.map (·.1)).Nodup

/-- Every bucket key occurs in the sweep order. -/
def KeysIn (B : List (String × List NewsItem)) (order : List String) : Prop :=
  ∀ k ∈ B.map (·.1), k ∈ order

/-- The suffix property: after any adjacent same-source pair, everything —
the rest of the result and every waiting post — shares that source. -/
def GoodRes (B : List (String × List NewsItem)) (res : List NewsItem) : Prop :=
  ∀ i a b, res[i]? = some a → res[i + 1]? = some b → a.source = b.source →
    (∀ q ∈ res.drop i, q.source = a.source) ∧
    (∀ q ∈ bucketsMS B, q.source = a.source)

lemma bucketsMS_cons (kv : String × List NewsItem) (B : List (String × List NewsItem)) :
    bucketsMS (kv :: B) = ↑kv.2 + bucketsMS B := by
  simp [bucketsMS]

lemma mem_bucketsMS (B : List (String × List NewsItem)) (q : NewsItem) :
    q ∈ bucketsMS B ↔ ∃ kv, kv ∈ B ∧ q ∈ kv.2 := by
  induction B with
  | nil => simp [bucketsMS]
  | cons kv B ih =>
    rw [bucketsMS_cons, Multiset.mem_add]
    simp only [List.mem_cons]
    constructor
    · rintro (hq | hq)
      · exact ⟨kv, Or.inl rfl, by simpa using hq⟩
      · rcases ih.mp hq with ⟨kv', h1, h2⟩
        exact ⟨kv', Or.inr h1, h2⟩
    · rintro ⟨kv', (rfl | h1), h2⟩
      · exact Or.inl (by simpa using h2)
      · exact Or.inr (ih.mpr ⟨kv', h1, h2⟩)

lemma totalCount_eq_card (B : List (String × List NewsItem)) :
    totalCount B = Multiset.card (bucketsMS B) := by
  induction B with
  | nil => simp [totalCount, bucketsMS]
  | cons kv B ih => simp [totalCount, bucketsMS] at ih ⊢; omega

/-- A non-default lookup names an actual entry. -/
lemma alistGet_mem {α : Type} (k : String) (b d : α) :
    ∀ l : List (String × α), alistGet l k d = b → b ≠ d → (k, b) ∈ l
  | [], h, hne => absurd h.symm hne
  | (k', v) :: rest, h, hne => by
    by_cases hk : k' = k
    · subst hk
      rw [alistGet, if_pos rfl] at h
      exact List.mem_cons.mpr (Or.inl (by rw [h]))
    · rw [alistGet, if_neg hk] at h
      exact List.mem_cons.mpr (Or.inr (alistGet_mem k b d rest h hne))

/-- With distinct keys, lookup of a member entry returns its value. -/
lemma alistGet_of_mem {α : Type} (k : String) (v d : α) :
    ∀ l : List (String × α), (l.map (·.1)).Nodup → (k, v) ∈ l →
      alistGet l k d = v
  | [], _, h => by cases h
  | (k', v') :: rest, hnd, h => by
    by_cases hk : k' = k
    · subst hk
      rw [alistGet, if_pos rfl]
      rcases List.mem_cons.mp h with heq | hmem
      · exact (congrArg Prod.snd heq).symm
      · exfalso
        have hker : k' ∈ rest.map (·.1) := List.mem_map.mpr ⟨(k', v), hmem, rfl⟩
        exact (List.nodup_cons.mp hnd).1 hker
    · rw [alistGet, if_neg hk]
      rcases List.mem_cons.mp h with heq | hmem
      · exact absurd (congrArg Prod.fst heq).symm hk
      · exact alistGet_of_mem k v d rest (List.nodup_cons.mp hnd).2 hmem

/-- Updating an existing key keeps the key list unchanged. -/
lemma alistSet_keys_of_mem {α : Type} (k : String) (v : α) :
    ∀ l : List (String × α), k ∈ l.map (·.1) →
      (alistSet l k v).map (·.1) = l.map (·.1)
  | [], h => by cases h
  | (k', v') :: rest, h => by
    by_cases hk : k' = k
    · subst hk
      rw [alistSet, if_pos rfl]
      simp
    · rw [alistSet, if_neg hk]
      simp only [List.map_cons, List.mem_cons] at h ⊢
      rcases h with heq | hmem
      · exact absurd heq.symm hk
      · rw [alistSet_keys_of_mem k v rest hmem]

/-- Updating an existing key of a buckets list with a same-source tail
keeps `BWF`. -/
lemma BWF_alistSet (k : String) (b' : List NewsItem)
    (hb' : ∀ x ∈ b', x.source = k) :
    ∀ B : List (String × List NewsItem), BWF B → BWF (alistSet B k b')
  | [], _ => by
    intro kv hkv
    rw [alistSet] at hkv
    have heq : kv = (k, b') := List.mem_singleton.mp hkv
    subst heq
    exact hb'
  | (k', v') :: rest, hbwf => by
    by_cases hk : k' = k
    · subst hk
      rw [alistSet, if_pos rfl]
      intro kv hkv
      rcases List.mem_cons.mp hkv with rfl | hmem
      · exact hb'
      · exact hbwf kv (List.mem_cons_of_mem _ hmem)
    · rw [alistSet, if_neg hk]
      intro kv hkv
      rcases List.mem_cons.mp hkv with rfl | hmem
      · exact hbwf (k', v') (List.mem_cons_self _ _)
      · exact BWF_alistSet k b' hb' rest
          (fun kv2 h2 => hbwf kv2 (List.mem_cons_of_mem _ h2)) kv hmem

/-- Multiset accounting of an in-place update (distinct keys). -/
lemma bucketsMS_alistSet (k : String) (b b' : List NewsItem) :
    ∀ B : List (String × List NewsItem), KND B → (k, b) ∈ B →
      bucketsMS (alistSet B k b') + ↑b = bucketsMS B + ↑b'
  | [], _, h => by cases h
  | (k', v') :: rest, hnd, h => by
    by_cases hk : k' = k
    · subst hk
      rw [alistSet, if_pos rfl]
      have hb : v' = b := by
        rcases List.mem_cons.mp h with heq | hmem
        · exact (congrArg Prod.snd heq).symm
        · exfalso
          have hker : k' ∈ rest.map (·.1) := List.mem_map.mpr ⟨(k', b), hmem, rfl⟩
          exact (List.nodup_cons.mp hnd).1 hker
      subst hb
      rw [bucketsMS_cons, bucketsMS_cons]
      abel
    · rw [alistSet, if_neg hk]
      have hmem : (k, b) ∈ rest := by
        rcases List.mem_cons.mp h with heq | hmem
        · exact absurd (congrArg Prod.fst heq).symm hk
        · exact hmem
      rw [bucketsMS_cons, bucketsMS_cons]
      have ih := bucketsMS_alistSet k b b' rest (List.nodup_cons.mp hnd).2 hmem
      have hstep : ↑v' + bucketsMS (alistSet rest k b') + ↑b =
          ↑v' + (bucketsMS (alistSet rest k b') + ↑b) := by abel
      rw [hstep, ih]
      abel

lemma bucketPop_none_iff (B : List (String × List NewsItem)) (s : String) :
    bucketPop B s = none ↔ alistGet B s [] = [] := by
  unfold bucketPop
  cases h : alistGet B s [] <;> simp

lemma bucketPop_some (B : List (String × List NewsItem)) (s : String)
    (p : NewsItem) (B' : List (String × List NewsItem))
    (h : bucketPop B s = some (p, B')) :
    ∃ rest, alistGet B s [] = p :: rest ∧ B' = alistSet B s rest := by
  unfold bucketPop at h
  cases hg : alistGet B s [] with
  | nil => rw [hg] at h; cases h
  | cons q rest =>
    rw [hg] at h
    injection h with h2
    have hqp : q = p := congrArg Prod.fst h2
    refine ⟨rest, ?_, (congrArg Prod.snd h2).symm⟩
    rw [hqp]

/-- Everything a successful pop guarantees. -/
lemma bucketPop_props (order : List String) (B : List (String × List NewsItem))
    (s : String) (p : NewsItem) (B' : List (String × List NewsItem))
    (hknd : KND B) (hbwf : BWF B) (hkeys : KeysIn B order)
    (h : bucketPop B s = some (p, B')) :
    p.source = s ∧ KND B' ∧ BWF B' ∧ KeysIn B' order ∧
    bucketsMS B' + {p} = bucketsMS B := by
  obtain ⟨rest, hget, hB'⟩ := bucketPop_some B s p B' h
  have hentry : (s, p :: rest) ∈ B := alistGet_mem s (p :: rest) [] B hget (by simp)
  have hsk : s ∈ B.map (·.1) := List.mem_map.mpr ⟨(s, p :: rest), hentry, rfl⟩
  have hsrc_all : ∀ x ∈ p :: rest, x.source = s := hbwf (s, p :: rest) hentry
  have hkeq : (alistSet B s rest).map (·.1) = B.map (·.1) :=
    alistSet_keys_of_mem s rest B hsk
  refine ⟨hsrc_all p (List.mem_cons_self p rest), ?_, ?_, ?_, ?_⟩
  · rw [hB']
    unfold KND
    rw [hkeq]
    exact hknd
  · rw [hB']
    exact BWF_alistSet s rest
      (fun x hx => hsrc_all x (List.mem_cons_of_mem p hx)) B hbwf
  · rw [hB']
    intro k hk
    rw [hkeq] at hk
    exact hkeys k hk
  · rw [hB']
    have hms := bucketsMS_alistSet s (p :: rest) rest B hknd hentry
    have hco : (↑(p :: rest) : Multiset NewsItem) = {p} + ↑rest := by
      simp
    rw [hco] at hms
    have hms2 : bucketsMS (alistSet B s rest) + {p} + ↑rest =
        bucketsMS B + ↑rest := by
      rw [← hms]
      abel
    exact add_right_cancel hms2

/-- Everything a successful repair-pop guarantees. -/
lemma popOther_props (order : List String) (s : String) (z : NewsItem)
    (B' : List (String × List NewsItem)) :
    ∀ (ord : List String) (B : List (String × List NewsItem)),
      KND B → BWF B → KeysIn B order →
      popOther B s ord = some (z, B') →
      z.source ≠ s ∧ KND B' ∧ BWF B' ∧ KeysIn B' order ∧
      bucketsMS B' + {z} = bucketsMS B
  | [], B, _, _, _, h => by cases h
  | t :: rest, B, hknd, hbwf, hkeys, h => by
    rw [popOther] at h
    by_cases hts : t = s
    · rw [if_pos hts] at h
      exact popOther_props order s z B' rest B hknd hbwf hkeys h
    · rw [if_neg hts] at h
      cases hp : bucketPop B t with
      | none =>
        rw [hp] at h
        exact popOther_props order s z B' rest B hknd hbwf hkeys h
      | some r =>
        rw [hp] at h
        injection h with h2
        rw [h2] at hp
        obtain ⟨hsrc, a1, a2, a3, a4⟩ :=
          bucketPop_props order B t z B' hknd hbwf hkeys hp
        exact ⟨by rw [hsrc]; exact hts, a1, a2, a3, a4⟩

/-- A failed repair scan means the searched keys hide nothing. -/
lemma popOther_none_get (s : String) :
    ∀ (ord : List String) (B : List (String × List NewsItem)),
      popOther B s ord = none →
      ∀ t ∈ ord, t ≠ s → alistGet B t [] = []
  | [], B, _ => by intro t ht; cases ht
  | t0 :: rest, B, h => by
    rw [popOther] at h
    intro t ht hts
    by_cases h0 : t0 = s
    · rw [if_pos h0] at h
      rcases List.mem_cons.mp ht with rfl | hmem
      · exact absurd h0 hts
      · exact popOther_none_get s rest B h t hmem hts
    · rw [if_neg h0] at h
      cases hp : bucketPop B t0 with
      | some r => rw [hp] at h; cases h
      | none =>
        rw [hp] at h
        rcases List.mem_cons.mp ht with rfl | hmem
        · exact (bucketPop_none_iff B t).mp hp
        · exact popOther_none_get s rest B h t hmem hts

/-- A failed repair scan over a covering order: the whole backlog shares
the source. -/
lemma popOther_none_src (order : List String) (B : List (String × List NewsItem))
    (s : String) (hknd : KND B) (hbwf : BWF B) (hkeys : KeysIn B order)
    (h : popOther B s order = none) :
    ∀ q ∈ bucketsMS B, q.source = s := by
  intro q hq
  rcases (mem_bucketsMS B q).mp hq with ⟨kv, hkv, hqkv⟩
  have hsrc : q.source = kv.1 := hbwf kv hkv q hqkv
  by_cases hks : kv.1 = s
  · rw [hsrc, hks]
  · exfalso
    have hkey : kv.1 ∈ order := hkeys kv.1 (List.mem_map.mpr ⟨kv, hkv, rfl⟩)
    have hempty : alistGet B kv.1 [] = [] :=
      popOther_none_get s order B h kv.1 hkey hks
    have hval : alistGet B kv.1 [] = kv.2 := alistGet_of_mem kv.1 kv.2 [] B hknd
      (by rw [show (kv.1, kv.2) = kv from rfl]; exact hkv)
    rw [hval] at hempty
    rw [hempty] at hqkv
    cases hqkv

/-- An indexed element survives dropping an earlier prefix. -/
lemma mem_drop_of_idx (l : List NewsItem) (i j : Nat) (q : NewsItem)
    (hij : i ≤ j) (h : l[j]? = some q) : q ∈ l.drop i := by
  have h2 : (l.drop i)[j - i]? = some q := by
    rw [List.getElem?_drop]
    rw [show i + (j - i) = j by omega]
    exact h
  exact List.getElem?_mem h2

/-- Appending a post of a *different* source than the current tail keeps
`GoodRes` (the appended pair cannot violate, and an old violation would
force the whole backlog — the appended post included — onto one source,
contradicting the difference). -/
lemma good_append_ne (B B2 : List (String × List NewsItem)) (res : List NewsItem)
    (p : NewsItem) (hgood : GoodRes B res)
    (hlast : ∀ q, res.getLast? = some q → q.source ≠ p.source)
    (hp : p ∈ bucketsMS B) :
    GoodRes B2 (res ++ [p]) := by
  intro i a b ha hb hab
  exfalso
  have hlen := (List.getElem?_eq_some.mp hb).1
  rw [List.length_append, List.length_singleton] at hlen
  by_cases hi : i + 1 < res.length
  · have ha' : res[i]? = some a := by
      rw [List.getElem?_append_left (by omega)] at ha
      exact ha
    have hb' : res[i + 1]? = some b := by
      rw [List.getElem?_append_left hi] at hb
      exact hb
    obtain ⟨hdrop, hbuck⟩ := hgood i a b ha' hb' hab
    have hresne : res ≠ [] := by
      intro hre
      rw [hre] at hi
      simp at hi
    cases hql : res.getLast? with
    | none => exact hresne (List.getLast?_eq_none_iff.mp hql)
    | some q =>
      have hq_idx : res[res.length - 1]? = some q := by
        rw [← List.getLast?_eq_getElem?]
        exact hql
      have hq_mem : q ∈ res.drop i := mem_drop_of_idx res i (res.length - 1) q
        (by omega) hq_idx
      have hq_src : q.source = a.source := hdrop q hq_mem
      have hp_src : p.source = a.source := hbuck p hp
      exact hlast q hql (by rw [hq_src, hp_src])
  · have hieq : i + 1 = res.length := by omega
    have hb' : (res ++ [p])[i + 1]? = some p := by
      rw [hieq]
      exact List.getElem?_concat_length res p
    have hbp : b = p := by
      rw [hb] at hb'
      injection hb'
    have ha' : res[i]? = some a := by
      rw [List.getElem?_append_left (by omega)] at ha
      exact ha
    have hqa : res.getLast? = some a := by
      rw [List.getLast?_eq_getElem?, show res.length - 1 = i by omega]
      exact ha'
    exact hlast a hqa (by rw [← hbp]; exact hab)

/-- Splicing a different-source post in front of the repeated one keeps
`GoodRes`: no adjacent pair of the new result can agree on source. -/
lemma good_insert (B B2 : List (String × List NewsItem)) (res : List NewsItem)
    (p z : NewsItem) (hgood : GoodRes B res)
    (hlastp : ∀ q, res.getLast? = some q → q.source = p.source)
    (hzsrc : z.source ≠ p.source)
    (hz : z ∈ bucketsMS B) :
    GoodRes B2 (res ++ [z, p]) := by
  intro i a b ha hb hab
  exfalso
  have hlen := (List.getElem?_eq_some.mp hb).1
  rw [List.length_append] at hlen
  simp only [List.length_cons, List.length_nil] at hlen
  by_cases hi : i + 1 < res.length
  · have ha' : res[i]? = some a := by
      rw [List.getElem?_append_left (by omega)] at ha
      exact ha
    have hb' : res[i + 1]? = some b := by
      rw [List.getElem?_append_left hi] at hb
      exact hb
    obtain ⟨hdrop, hbuck⟩ := hgood i a b ha' hb' hab
    have hresne : res ≠ [] := by
      intro hre
      rw [hre] at hi
      simp at hi
    cases hql : res.getLast? with
    | none => exact hresne (List.getLast?_eq_none_iff.mp hql)
    | some q =>
      have hq_idx : res[res.length - 1]? = some q := by
        rw [← List.getLast?_eq_getElem?]
        exact hql
      have hq_mem : q ∈ res.drop i := mem_drop_of_idx res i (res.length - 1) q
        (by omega) hq_idx
      have hq_src : q.source = a.source := hdrop q hq_mem
      have hz_src : z.source = a.source := hbuck z hz
      have hqp := hlastp q hql
      exact hzsrc (by rw [hz_src, ← hq_src, hqp])
  · by_cases hi2 : i + 1 = res.length
    · have hb2 : (res ++ [z, p])[i + 1]? = some z := by
        rw [List.getElem?_append_right (by omega : res.length ≤ i + 1)]
        rw [show i + 1 - res.length = 0 by omega]
        rfl
      have hbz : b = z := by
        rw [hb] at hb2
        injection hb2
      have ha' : res[i]? = some a := by
        rw [List.getElem?_append_left (by omega)] at ha
        exact ha
      have hqa : res.getLast? = some a := by
        rw [List.getLast?_eq_getElem?, show res.length - 1 = i by omega]
        exact ha'
      have hap := hlastp a hqa
      exact hzsrc (by rw [← hbz, ← hab, hap])
    · have hieq : i = res.length := by omega
      have ha2 : (res ++ [z, p])[i]? = some z := by
        rw [List.getElem?_append_right (by omega : res.length ≤ i)]
        rw [show i - res.length = 0 by omega]
        rfl
      have hb2 : (res ++ [z, p])[i + 1]? = some p := by
        rw [List.getElem?_append_right (by omega : res.length ≤ i + 1)]
        rw [show i + 1 - res.length = 1 by omega]
        rfl
      have haz : a = z := by
        rw [ha] at ha2
        injection ha2
      have hbp : b = p := by
        rw [hb] at hb2
        injection hb2
      exact hzsrc (by rw [← haz, ← hbp, hab])

lemma coe_append_one (l : List NewsItem) (p : NewsItem) :
    (↑(l ++ [p]) : Multiset NewsItem) = ↑l + {p} := by
  rw [← Multiset.coe_add, Multiset.coe_singleton]

lemma coe_append_two (l : List NewsItem) (z p : NewsItem) :
    (↑(l ++ [z, p]) : Multiset NewsItem) = ↑l + ({z} + {p}) := by
  rw [← Multiset.coe_add]
  congr 1

lemma coe_cons_ms (p : NewsItem) (ps : List NewsItem) :
    (↑(p :: ps) : Multiset NewsItem) = {p} + ↑ps := by
  rw [← Multiset.cons_coe, ← Multiset.singleton_add]

/-- Appending a repeated-source post when the repair scan found nothing:
`GoodRes` survives because the whole backlog already shares the source. -/
lemma good_append_eq (B2 : List (String × List NewsItem)) (res : List NewsItem)
    (p : NewsItem) (s : String)
    (hgood1 : ∀ i a b, res[i]? = some a → res[i + 1]? = some b →
      a.source = b.source → ∀ q ∈ res.drop i, q.source = a.source)
    (hall : ∀ q ∈ bucketsMS B2, q.source = s)
    (hp : p.source = s)
    (hlast : ∀ q, res.getLast? = some q → q.source = s) :
    GoodRes B2 (res ++ [p]) := by
  intro i a b ha hb hab
  have hlen := (List.getElem?_eq_some.mp hb).1
  rw [List.length_append, List.length_singleton] at hlen
  by_cases hi : i + 1 < res.length
  · have ha' : res[i]? = some a := by
      rw [List.getElem?_append_left (by omega)] at ha
      exact ha
    have hb' : res[i + 1]? = some b := by
      rw [List.getElem?_append_left hi] at hb
      exact hb
    have hdrop := hgood1 i a b ha' hb' hab
    have hresne : res ≠ [] := by
      intro hre
      rw [hre] at hi
      simp at hi
    have has : a.source = s := by
      cases hql : res.getLast? with
      | none => exact absurd (List.getLast?_eq_none_iff.mp hql) hresne
      | some q =>
        have hq_idx : res[res.length - 1]? = some q := by
          rw [← List.getLast?_eq_getElem?]
          exact hql
        have hq_mem : q ∈ res.drop i := mem_drop_of_idx res i (res.length - 1) q
          (by omega) hq_idx
        rw [← hdrop q hq_mem]
        exact hlast q hql
    constructor
    · intro q' hq'
      rw [List.drop_append_of_le_length (by omega : i ≤ res.length)] at hq'
      rcases List.mem_append.mp hq' with hq2 | hq2
      · exact hdrop q' hq2
      · rw [List.mem_singleton.mp hq2, hp]
        exact has.symm
    · intro q' hq'
      rw [hall q' hq']
      exact has.symm
  · have hieq : i + 1 = res.length := by omega
    have ha' : res[i]? = some a := by
      rw [List.getElem?_append_left (by omega)] at ha
      exact ha
    have hqa : res.getLast? = some a := by
      rw [List.getLast?_eq_getElem?, show res.length - 1 = i by omega]
      exact ha'
    have has : a.source = s := hlast a hqa
    constructor
    · intro q' hq'
      rw [List.drop_append_of_le_length (by omega : i ≤ res.length)] at hq'
      rcases List.mem_append.mp hq' with hq2 | hq2
      · obtain ⟨jj, hjj, hjq⟩ := List.getElem_of_mem hq2
        have hjlen : (res.drop i).length = res.length - i := List.length_drop i res
        have hjj0 : jj = 0 := by omega
        subst hjj0
        have h0 : (res.drop i)[0]? = some q' := List.getElem?_eq_some.mpr ⟨hjj, hjq⟩
        rw [List.getElem?_drop] at h0
        rw [show i + 0 = i by omega] at h0
        rw [ha'] at h0
        have hqa' : a = q' := by injection h0
        rw [← hqa']
      · rw [List.mem_singleton.mp hq2, hp]
        exact has.symm
    · intro q' hq'
      rw [hall q' hq']
      exact has.symm

/-- The full account of one `for`-body step: invariants, `GoodRes`, the
multiset of posts, and a no-op-or-strict-decrease dichotomy. -/
lemma stepSource_props (order : List String) (B : List (String × List NewsItem))
    (res : List NewsItem) (s : String)
    (hknd : KND B) (hbwf : BWF B) (hkeys : KeysIn B order) (hgood : GoodRes B res) :
    KND (stepSource order (B, res) s).1 ∧ BWF (stepSource order (B, res) s).1 ∧
    KeysIn (stepSource order (B, res) s).1 order ∧
    GoodRes (stepSource order (B, res) s).1 (stepSource order (B, res) s).2 ∧
    ↑(stepSource order (B, res) s).2 + bucketsMS (stepSource order (B, res) s).1 =
      ↑res + bucketsMS B ∧
    (stepSource order (B, res) s = (B, res) ∧ alistGet B s [] = [] ∨
      totalCount (stepSource order (B, res) s).1 < totalCount B) := by
  cases hpop : bucketPop B s with
  | none =>
    have hres : stepSource order (B, res) s = (B, res) := by
      simp only [stepSource, hpop]
    rw [hres]
    exact ⟨hknd, hbwf, hkeys, hgood, rfl,
      Or.inl ⟨rfl, (bucketPop_none_iff B s).mp hpop⟩⟩
  | some pb =>
    obtain ⟨p, B1⟩ := pb
    obtain ⟨hpsrc, hknd1, hbwf1, hkeys1, hms1⟩ :=
      bucketPop_props order B s p B1 hknd hbwf hkeys hpop
    have hpmem : p ∈ bucketsMS B := by
      rw [← hms1]
      simp
    have hcount : totalCount B1 < totalCount B := by
      rw [totalCount_eq_card, totalCount_eq_card, ← hms1, Multiset.card_add,
        Multiset.card_singleton]
      omega
    have hcons1 : (↑(res ++ [p]) : Multiset NewsItem) + bucketsMS B1 =
        ↑res + bucketsMS B := by
      rw [coe_append_one, ← hms1]
      abel
    cases hlast : res.getLast? with
    | none =>
      have hres : stepSource order (B, res) s = (B1, res ++ [p]) := by
        simp only [stepSource, hpop, hlast]
      rw [hres]
      refine ⟨hknd1, hbwf1, hkeys1, ?_, hcons1, Or.inr hcount⟩
      exact good_append_ne B B1 res p hgood
        (fun q hq => by rw [hlast] at hq; cases hq) hpmem
    | some q =>
      by_cases hqp : q.source = p.source
      · cases hpo : popOther B1 s order with
        | some zb =>
          obtain ⟨z, B2⟩ := zb
          obtain ⟨hzsrc, hknd2, hbwf2, hkeys2, hms2⟩ :=
            popOther_props order s z B2 order B1 hknd1 hbwf1 hkeys1 hpo
          have hres : stepSource order (B, res) s = (B2, res ++ [z, p]) := by
            simp only [stepSource, hpop, hlast, if_pos hqp, hpo]
          rw [hres]
          have hzmem : z ∈ bucketsMS B := by
            have hz1 : z ∈ bucketsMS B1 := by
              rw [← hms2]
              simp
            exact Multiset.mem_of_le
              (Multiset.le_iff_exists_add.mpr ⟨{p}, hms1.symm⟩) hz1
          refine ⟨hknd2, hbwf2, hkeys2, ?_, ?_, Or.inr ?_⟩
          · refine good_insert B B2 res p z hgood ?_ ?_ hzmem
            · intro q' hq'
              rw [hlast] at hq'
              have hqq : q = q' := by injection hq'
              rw [← hqq]
              exact hqp
            · rw [hpsrc]
              exact hzsrc
          · show (↑(res ++ [z, p]) : Multiset NewsItem) + bucketsMS B2 =
              ↑res + bucketsMS B
            rw [coe_append_two, ← hms1, ← hms2]
            abel
          · show totalCount B2 < totalCount B
            rw [totalCount_eq_card, totalCount_eq_card, ← hms1, ← hms2,
              Multiset.card_add, Multiset.card_add, Multiset.card_singleton,
              Multiset.card_singleton]
            omega
        | none =>
          have hall1 : ∀ q' ∈ bucketsMS B1, q'.source = s :=
            popOther_none_src order B1 s hknd1 hbwf1 hkeys1 hpo
          have hres : stepSource order (B, res) s = (B1, res ++ [p]) := by
            simp only [stepSource, hpop, hlast, if_pos hqp, hpo]
          rw [hres]
          refine ⟨hknd1, hbwf1, hkeys1, ?_, hcons1, Or.inr hcount⟩
          refine good_append_eq B1 res p s
            (fun i a b ha hb hab => (hgood i a b ha hb hab).1) hall1 hpsrc ?_
          intro q' hq'
          rw [hlast] at hq'
          have hqq : q = q' := by injection hq'
          rw [← hqq, hqp, hpsrc]
      · have hres : stepSource order (B, res) s = (B1, res ++ [p]) := by
          simp only [stepSource, hpop, hlast, if_neg hqp]
        rw [hres]
        refine ⟨hknd1, hbwf1, hkeys1, ?_, hcons1, Or.inr hcount⟩
        refine good_append_ne B B1 res p hgood ?_ hpmem
        intro q' hq'
        rw [hlast] at hq'
        have hqq : q = q' := by injection hq'
        rw [← hqq]
        exact hqp

/-- The account of a full sweep over a source list. -/
lemma foldSteps_props (order : List String) :
    ∀ (ord : List String) (B : List (String × List NewsItem)) (res : List NewsItem),
      KND B → BWF B → KeysIn B order → GoodRes B res →
      KND (ord.foldl (stepSource order) (B, res)).1 ∧
      BWF (ord.foldl (stepSource order) (B, res)).1 ∧
      KeysIn (ord.foldl (stepSource order) (B, res)).1 order ∧
      GoodRes (ord.foldl (stepSource order) (B, res)).1
        (ord.foldl (stepSource order) (B, res)).2 ∧
      ↑(ord.foldl (stepSource order) (B, res)).2 +
        bucketsMS (ord.foldl (stepSource order) (B, res)).1 =
        ↑res + bucketsMS B ∧
      (ord.foldl (stepSource order) (B, res) = (B, res) ∧
        (∀ t ∈ ord, alistGet B t [] = []) ∨
        totalCount (ord.foldl (stepSource order) (B, res)).1 < totalCount B)
  | [], B, res, hknd, hbwf, hkeys, hgood => by
    rw [List.foldl_nil]
    exact ⟨hknd, hbwf, hkeys, hgood, rfl, Or.inl ⟨rfl, by intro t ht; cases ht⟩⟩
  | t :: rest, B, res, hknd, hbwf, hkeys, hgood => by
    simp only [List.foldl_cons]
    obtain ⟨k1, b1, ky1, g1, ms1, d1⟩ :=
      stepSource_props order B res t hknd hbwf hkeys hgood
    rcases hsp : stepSource order (B, res) t with ⟨B', res'⟩
    rw [hsp] at k1 b1 ky1 g1 ms1 d1
    obtain ⟨k2, b2, ky2, g2, ms2, d2⟩ :=
      foldSteps_props order rest B' res' k1 b1 ky1 g1
    refine ⟨k2, b2, ky2, g2, ms2.trans ms1, ?_⟩
    rcases d1 with ⟨heq, hget⟩ | hlt
    · have hB : B' = B := congrArg Prod.fst heq
      have hr : res' = res := congrArg Prod.snd heq
      subst hB
      subst hr
      rcases d2 with ⟨heq2, hget2⟩ | hlt2
      · left
        refine ⟨heq2, ?_⟩
        intro t' ht'
        rcases List.mem_cons.mp ht' with rfl | hmem
        · exact hget
        · exact hget2 t' hmem
      · right
        exact hlt2
    · right
      rcases d2 with ⟨heq2, _⟩ | hlt2
      · rw [heq2]
        exact hlt
      · exact lt_trans hlt2 hlt

/-- A nonempty backlog loses at least one post per sweep. -/
lemma totalCount_ne_zero (B : List (String × List NewsItem))
    (h : totalCount B ≠ 0) : ∃ kv ∈ B, kv.2 ≠ [] := by
  induction B with
  | nil => simp [totalCount] at h
  | cons kv rest ih =>
    by_cases hkv : kv.2 = []
    · have h2 : totalCount rest ≠ 0 := by
        simp only [totalCount, List.map_cons, List.sum_cons, hkv,
          List.length_nil] at h
        simpa [totalCount] using h
      obtain ⟨kv', h1, h3⟩ := ih h2
      exact ⟨kv', List.mem_cons_of_mem _ h1, h3⟩
    · exact ⟨kv, List.mem_cons_self _ _, hkv⟩

lemma passSources_decr (order : List String) (B : List (String × List NewsItem))
    (res : List NewsItem)
    (hknd : KND B) (hbwf : BWF B) (hkeys : KeysIn B order) (hgood : GoodRes B res)
    (hne : totalCount B ≠ 0) :
    totalCount (passSources order (B, res)).1 < totalCount B := by
  obtain ⟨_, _, _, _, _, d⟩ := foldSteps_props order order B res hknd hbwf hkeys hgood
  rcases d with ⟨heq, hget⟩ | hlt
  · exfalso
    obtain ⟨kv, hkv, hne2⟩ := totalCount_ne_zero B hne
    have hkey : kv.1 ∈ order := hkeys kv.1 (List.mem_map.mpr ⟨kv, hkv, rfl⟩)
    have hval : alistGet B kv.1 [] = kv.2 := alistGet_of_mem kv.1 kv.2 [] B hknd
      (by rw [show (kv.1, kv.2) = kv from rfl]; exact hkv)
    rw [hget kv.1 hkey] at hval
    exact hne2 hval.symm
  · exact hlt

/-- The while loop, with enough fuel, keeps `GoodRes`, conserves the
posts, and drains the buckets completely. -/
lemma drainGo_props (order : List String) :
    ∀ (fuel : Nat) (B : List (String × List NewsItem)) (res : List NewsItem),
      KND B → BWF B → KeysIn B order → GoodRes B res →
      totalCount B ≤ fuel →
      GoodRes (drainGo order fuel (B, res)).1 (drainGo order fuel (B, res)).2 ∧
      ↑(drainGo order fuel (B, res)).2 + bucketsMS (drainGo order fuel (B, res)).1 =
        ↑res + bucketsMS B ∧
      totalCount (drainGo order fuel (B, res)).1 = 0
  | 0, B, res, hknd, hbwf, hkeys, hgood, hfuel => by
    exact ⟨hgood, rfl, by show totalCount B = 0; omega⟩
  | fuel + 1, B, res, hknd, hbwf, hkeys, hgood, hfuel => by
    simp only [drainGo]
    by_cases hz : totalCount B = 0
    · rw [if_pos hz]
      exact ⟨hgood, rfl, hz⟩
    · rw [if_neg hz]
      obtain ⟨k1, b1, ky1, g1, ms1, _⟩ :=
        foldSteps_props order order B res hknd hbwf hkeys hgood
      have hdec := passSources_decr order B res hknd hbwf hkeys hgood hz
      have hfe : totalCount (passSources order (B, res)).1 ≤ fuel := by omega
      obtain ⟨g2, ms2, t2⟩ := drainGo_props order fuel
        (passSources order (B, res)).1 (passSources order (B, res)).2
        k1 b1 ky1 g1 hfe
      exact ⟨g2, ms2.trans ms1, t2⟩

/-- The initial grouping is well formed. -/
lemma groupBySource_BWF (posts : List NewsItem) : BWF (groupBySource posts) := by
  intro kv hkv x hx
  have hget : alistGet (groupBySource posts) kv.1 [] = kv.2 :=
    alistGet_of_mem kv.1 kv.2 [] _ (groupBySource_keys_nodup posts)
      (by rw [show (kv.1, kv.2) = kv from rfl]; exact hkv)
  rw [groupBySource_get] at hget
  rw [← hget] at hx
  exact of_decide_eq_true (List.mem_filter.mp hx).2

lemma bucketsMS_insertGrouped (p : NewsItem) :
    ∀ acc, bucketsMS (insertGrouped acc p) = bucketsMS acc + {p}
  | [] => by
    simp only [insertGrouped, bucketsMS, List.map_cons, List.map_nil, List.sum_cons,
      List.sum_nil]
    rw [Multiset.coe_singleton]
    abel
  | (t, b) :: rest => by
    by_cases h : t = p.source
    · simp only [insertGrouped, if_pos h, bucketsMS_cons]
      rw [coe_append_one]
      abel
    · simp only [insertGrouped, if_neg h, bucketsMS_cons,
        bucketsMS_insertGrouped p rest]
      abel

/-- Grouping conserves the posts. -/
lemma bucketsMS_group (posts : List NewsItem) :
    bucketsMS (groupBySource posts) = ↑posts := by
  suffices h : ∀ acc, bucketsMS (posts.foldl insertGrouped acc) =
      bucketsMS acc + ↑posts by
    have h2 := h []
    rw [show bucketsMS [] = 0 from rfl] at h2
    rw [groupBySource]
    rw [h2]
    abel
  induction posts with
  | nil => intro acc; simp
  | cons p ps ih =>
    intro acc
    simp only [List.foldl_cons, ih (insertGrouped acc p),
      bucketsMS_insertGrouped p acc]
    rw [coe_cons_ms]
    abel

/-- Every bucket key occurs in the sweep order of
`avoid_consecutive_sources`. -/
lemma keysIn_consecOrder (B : List (String × List NewsItem)) :
    KeysIn B (consecOrder B) := by
  intro k hk
  exact (sortDescBy_perm _ _).mem_iff.mpr hk

/-- C4: the selection returns at most `MAX_POSTS_PER_DAY` items; the full
interleaving `drainFull` is a permutation of the input; and whenever two
consecutive returned items share a source, *everything* from that point
on — the rest of the interleaving, i.e. every candidate not yet picked at
that position — shares that source (the consecutive-source rule is
relaxed only when no alternative exists). -/
theorem C4_consecutive (posts : List NewsItem) :
    (avoid_consecutive_sources posts).length ≤ MAX_POSTS_PER_DAY ∧
    (drainFull posts).Perm posts ∧
    ∀ i a b, (avoid_consecutive_sources posts)[i]? = some a →
      (avoid_consecutive_sources posts)[i + 1]? = some b →
      a.source = b.source →
      ∀ q ∈ (drainFull posts).drop i, q.source = a.source := by
  have hknd : KND (groupBySource posts) := groupBySource_keys_nodup posts
  have hbwf : BWF (groupBySource posts) := groupBySource_BWF posts
  have hkeys : KeysIn (groupBySource posts) (consecOrder (groupBySource posts)) :=
    keysIn_consecOrder _
  have hgood0 : GoodRes (groupBySource posts) [] := by
    intro i a b ha hb hab
    rw [List.getElem?_nil] at ha
    cases ha
  obtain ⟨hgood, hms, htot⟩ := drainGo_props (consecOrder (groupBySource posts))
    (totalCount (groupBySource posts)) (groupBySource posts) []
    hknd hbwf hkeys hgood0 le_rfl
  have hMSempty : bucketsMS (drainGo (consecOrder (groupBySource posts))
      (totalCount (groupBySource posts)) (groupBySource posts, [])).1 = 0 := by
    rw [totalCount_eq_card] at htot
    exact Multiset.card_eq_zero.mp htot
  have hperm : (drainFull posts).Perm posts := by
    have h2 := hms
    rw [hMSempty, bucketsMS_group] at h2
    simp only [add_zero, Multiset.coe_nil, zero_add] at h2
    exact Multiset.coe_eq_coe.mp h2
  refine ⟨?_, hperm, ?_⟩
  · unfold avoid_consecutive_sources
    split
    · next h =>
      simp only [MAX_POSTS_PER_DAY]
      omega
    · exact List.length_take_le _ _
  · intro i a b ha hb hab
    unfold avoid_consecutive_sources at ha hb
    by_cases hlt : posts.length < 2
    · rw [if_pos hlt] at hb
      have := (List.getElem?_eq_some.mp hb).1
      omega
    · rw [if_neg hlt] at ha hb
      have hb_lt : i + 1 < MAX_POSTS_PER_DAY := by
        have h1 := (List.getElem?_eq_some.mp hb).1
        have h2 := List.length_take_le MAX_POSTS_PER_DAY (drainFull posts)
        omega
      have ha' : (drainFull posts)[i]? = some a := by
        rw [List.getElem?_take, if_pos (by omega : i < MAX_POSTS_PER_DAY)] at ha
        exact ha
      have hb' : (drainFull posts)[i + 1]? = some b := by
        rw [List.getElem?_take, if_pos hb_lt] at hb
        exact hb
      exact (hgood i a b ha' hb' hab).1

/-- C4 witness: with both candidates from one source, the unavoidable
consecutive pair forces the whole remainder onto that source. -/
theorem C4_consecutive_witness :
    (⟨"a2", "u2", "c", "", "A"⟩ : NewsItem).source =
      (⟨"a1", "u1", "c", "", "A"⟩ : NewsItem).source :=
  (C4_consecutive [⟨"a1", "u1", "c", "", "A"⟩, ⟨"a2", "u2", "c", "", "A"⟩]).2.2
    0 ⟨"a1", "u1", "c", "", "A"⟩ ⟨"a2", "u2", "c", "", "A"⟩ (by decide) (by decide)
    rfl ⟨"a2", "u2", "c", "", "A"⟩ (by decide)

end Bankomant
